import Mathlib

/-!
Verification of the B+ tree iteration layer (`src/iterate.rs`) of the
BPlusTree5 repository against its specification.

The tree itself (node layout, descent, mutation) is not part of the staged
sources; following the specification (§3, §4.3, §4.7), a map is modelled by
its leaf level: the list of leaves in linked-list order, each leaf a list of
(key, value) pairs.  Leaf pointers become indices into that list: the `next`
pointer of leaf `j` is `j+1` (null past the end) and the `prev` pointer is
`j-1` (null at the front), which is invariant (I4) of the spec.  The cursor
and every function of `iterate.rs` are translated on top of this model.
-/

namespace BPlusTree

/-- Mirror of `core::ops::Bound`, as stored in the cursor (`start_bound`,
`end_bound` fields of `ItemsInner::Lazy`). -/
inductive Bound (K : Type) where
  | unbounded : Bound K
  | included : K → Bound K
  | excluded : K → Bound K
deriving DecidableEq, Repr

/-- Modelled from the spec: the map's leaf level (§3.1, I4) — the leaves in
ascending key order, as threaded by the doubly linked sibling list. -/
structure TreeModel (K V : Type) where
  leaves : List (List (K × V))
deriving DecidableEq, Repr

variable {K V : Type} [LinearOrder K]

/-- All live pairs in ascending key order: the concatenation of the leaves. -/
def allPairs (t : TreeModel K V) : List (K × V) :=
  t.leaves.flatten

/-- Modelled from the spec: `len()` is the map's item-count field; by
invariant (I5) it equals the sum of the leaf lengths. -/
def numItems (t : TreeModel K V) : Nat :=
  (allPairs t).length

/-- Modelled from the spec: `is_empty()` is `len() == 0` (§4.7). -/
def isEmpty (t : TreeModel K V) : Bool :=
  decide (numItems t = 0)

/-- The leaf a (non-null) leaf pointer designates; out-of-range indices do
not arise from the translated code and give the empty leaf. -/
def getLeaf (t : TreeModel K V) (j : Nat) : List (K × V) :=
  t.leaves.getD j []

/-- The `next` sibling pointer of leaf `j` (I4): the following leaf, or null. -/
def nextLeafPtr (t : TreeModel K V) (j : Nat) : Option Nat :=
  if j + 1 < t.leaves.length then some (j + 1) else none

/-- Modelled from the spec: the map's cached head (leftmost) leaf (§3.2). -/
def leftmostLeaf (t : TreeModel K V) : Option Nat :=
  if t.leaves.isEmpty then none else some 0

/-- Modelled from the spec: the map's cached tail (rightmost) leaf (§3.2). -/
def rightmostLeaf (t : TreeModel K V) : Option Nat :=
  if t.leaves.isEmpty then none else some (t.leaves.length - 1)

/-- End-bound test of `Items::next` (iterate.rs:110-114): `k <= e` for
`Included(e)`, `k < e` for `Excluded(e)`, always true for `Unbounded`. -/
def upperOk : Bound K → K → Bool
  | .unbounded, _ => true
  | .included e, k => decide (k ≤ e)
  | .excluded e, k => decide (k < e)

/-- Start-bound test of `Items::next_back` (iterate.rs:187-191): `k >= s` for
`Included(s)`, `k > s` for `Excluded(s)`, always true for `Unbounded`. -/
def lowerOk : Bound K → K → Bool
  | .unbounded, _ => true
  | .included s, k => decide (s ≤ k)
  | .excluded s, k => decide (s < k)

/-- Whether a leaf's minimum key is at most `k` (helper for `leafForKey`). -/
def leafMinLe (l : List (K × V)) (k : K) : Bool :=
  match l.head? with
  | some p => decide (p.1 ≤ k)
  | none => false

/-- Modelled from the spec: `leaf_for_key(k)` (§4.3) — descend from the root,
at each branch taking child `i+1` on an equal separator match and child `i`
at the insertion point; since separator `s_i` is the minimum key of child
`i+1` (I3), the leaf reached is the last leaf whose minimum key is ≤ k (the
first leaf when k precedes every key).  None only when the tree is empty. -/
def leafForKey (t : TreeModel K V) (k : K) : Option Nat :=
  if t.leaves.isEmpty then none
  else some ((t.leaves.takeWhile (fun l => leafMinLe l k)).length - 1)

/-- Outcome of `slice::binary_search`: `Ok i` (found at `i`) or `Err i`
(would insert before `i`). -/
inductive SearchOutcome where
  | found : Nat → SearchOutcome
  | insertAt : Nat → SearchOutcome
deriving DecidableEq, Repr

/-- Modelled from the spec (§4.3): binary search in a sorted key slice —
found index of an equal key, otherwise the insertion point.  On a strictly
sorted slice both are the number of keys below `k`. -/
def binarySearch (keys : List K) (k : K) : SearchOutcome :=
  let i := (keys.takeWhile (fun x => decide (x < k))).length
  if keys.get? i = some k then .found i else .insertAt i

/-- The in-leaf start position computed by the lazy-init block of
`Items::next` (iterate.rs:65-89) and by `collect_range_bounds`
(iterate.rs:398-409): found index (plus one when the start bound is
excluded), else the insertion point. -/
def startIndex (leaf : List (K × V)) (k : K) (isExcluded : Bool) : Nat :=
  match binarySearch (leaf.map Prod.fst) k with
  | .found i => if isExcluded then i + 1 else i
  | .insertAt i => i

/-- The `ItemsInner::Lazy` cursor state (iterate.rs:10-20); the `tree`
reference is passed to each operation instead of being stored. -/
structure LazyCursor (K : Type) where
  frontLeaf : Option Nat
  frontIdx : Nat
  backLeaf : Option Nat
  backIdx : Nat
  remaining : Nat
  startBound : Bound K
  endBound : Bound K
  initialized : Bool
deriving DecidableEq, Repr

/-- `ItemsInner` (iterate.rs:9-24): the lazy cursor, or the pre-collected
vector used by `items_range`. -/
inductive ItemsIter (K V : Type) where
  | lazy : LazyCursor K → ItemsIter K V
  | vec : List (K × V) → ItemsIter K V
deriving DecidableEq, Repr

/-- The lazy-initialization block of `Items::next` (iterate.rs:46-97):
resolve the start bound to a front (leaf, index) position. -/
def lazyInitFront (t : TreeModel K V) (sb : Bound K) : Option Nat × Nat :=
  match sb with
  | .unbounded => (leftmostLeaf t, 0)
  | .included k =>
    match leafForKey t k with
    | none => (none, 0)
    | some j =>
      let idx := startIndex (getLeaf t j) k false
      if (getLeaf t j).length ≤ idx then (nextLeafPtr t j, 0) else (some j, idx)
  | .excluded k =>
    match leafForKey t k with
    | none => (none, 0)
    | some j =>
      let idx := startIndex (getLeaf t j) k true
      if (getLeaf t j).length ≤ idx then (nextLeafPtr t j, 0) else (some j, idx)

/-- Applies the lazy initialization of `Items::next` when the cursor is not
yet initialized (iterate.rs:46-47). -/
def initCursor (t : TreeModel K V) (c : LazyCursor K) : LazyCursor K :=
  if c.initialized then c
  else
    let fi := lazyInitFront t c.startBound
    { c with frontLeaf := fi.1, frontIdx := fi.2, initialized := true }

/-- The forward stepping loop of `Items::next` (iterate.rs:100-142), entered
with a non-null front leaf `j` and index `i`.  Returns the yielded pair (if
any) and the updated `front_leaf`, `front_idx`, `remaining` fields. -/
def itemsNextLoop (t : TreeModel K V) (eb : Bound K) (rem : Nat) (j i : Nat) :
    Option (K × V) × Option Nat × Nat × Nat :=
  let leaf := getLeaf t j
  if h : i < leaf.length then
    let p := leaf.get ⟨i, h⟩
    if upperOk eb p.1 then (some p, some j, i + 1, rem - 1)
    else (none, none, i, 0)
  else if h2 : j + 1 < t.leaves.length then
    itemsNextLoop t eb rem (j + 1) 0
  else (none, none, i, 0)
termination_by t.leaves.length - j
decreasing_by omega

/-- `Items::next` (iterate.rs:33-146); the `Vec` arm is `IntoIter::next`. -/
def next (t : TreeModel K V) : ItemsIter K V → Option (K × V) × ItemsIter K V
  | .vec [] => (none, .vec [])
  | .vec (p :: rest) => (some p, .vec rest)
  | .lazy c =>
    let c1 := initCursor t c
    match c1.frontLeaf with
    | none => (none, .lazy c1)
    | some j =>
      let r := itemsNextLoop t c1.endBound c1.remaining j c1.frontIdx
      (r.1, .lazy { c1 with frontLeaf := r.2.1, frontIdx := r.2.2.1, remaining := r.2.2.2 })

/-- The body of `Items::next_back` (iterate.rs:178-222) for a non-null back
leaf `j` with back index `bidx`; the tail recursion is the source's
`self.next_back()` after moving to the previous leaf.  Returns the yielded
pair (if any) and the updated `back_leaf`, `back_idx`, `remaining`. -/
def nextBackAux (t : TreeModel K V) (sb : Bound K) (rem : Nat) (j bidx : Nat) :
    Option (K × V) × Option Nat × Nat × Nat :=
  if 0 < bidx then
    let leaf := getLeaf t j
    if h : bidx - 1 < leaf.length then
      let p := leaf.get ⟨bidx - 1, h⟩
      if lowerOk sb p.1 then (some p, some j, bidx - 1, rem - 1)
      else (none, none, bidx - 1, 0)
    else (none, none, bidx - 1, 0)
  else if hj : 0 < j then
    nextBackAux t sb rem (j - 1) (getLeaf t (j - 1)).length
  else (none, none, bidx, 0)
termination_by j
decreasing_by omega

/-- `Items::next_back` (iterate.rs:167-227): no lazy initialization — a null
`back_leaf` returns `None` at once; the `Vec` arm is `IntoIter::next_back`. -/
def nextBack (t : TreeModel K V) : ItemsIter K V → Option (K × V) × ItemsIter K V
  | .vec l =>
    match l.getLast? with
    | none => (none, .vec l)
    | some p => (some p, .vec l.dropLast)
  | .lazy c =>
    match c.backLeaf with
    | none => (none, .lazy c)
    | some j =>
      let r := nextBackAux t c.startBound c.remaining j c.backIdx
      (r.1, .lazy { c with backLeaf := r.2.1, backIdx := r.2.2.1, remaining := r.2.2.2 })

/-- `Items::size_hint` (iterate.rs:148-164). -/
def sizeHint : ItemsIter K V → Nat × Option Nat
  | .lazy c =>
    if c.initialized && decide (0 < c.remaining) then (c.remaining, some c.remaining)
    else (0, none)
  | .vec l => (l.length, some l.length)

/-- `BPlusTreeMap::items` (iterate.rs:274-316): eagerly positions the front
at the head leaf and the back at (tail leaf, its length). -/
def items (t : TreeModel K V) : ItemsIter K V :=
  if numItems t = 0 then
    .lazy ⟨none, 0, none, 0, 0, .unbounded, .unbounded, true⟩
  else
    let backIdx := match rightmostLeaf t with
      | some j => (getLeaf t j).length
      | none => 0
    .lazy ⟨leftmostLeaf t, 0, rightmostLeaf t, backIdx, numItems t, .unbounded, .unbounded, true⟩

/-- `BPlusTreeMap::range` (iterate.rs:342-359): stores the two bounds and an
uninitialized cursor; no descent, no leaf is read. -/
def range (t : TreeModel K V) (sb eb : Bound K) : ItemsIter K V :=
  .lazy ⟨none, 0, none, 0, 0, sb, eb, false⟩

/-- The leaf-walking loop of `collect_range_bounds` (iterate.rs:411-438):
push pairs from `firstIdx` on while the end bound holds; stop early on a
bound failure, otherwise follow the next pointer. -/
def collectLoop (t : TreeModel K V) (eb : Bound K) (j firstIdx : Nat) : List (K × V) :=
  if hj : j < t.leaves.length then
    let rest := (t.leaves.get ⟨j, hj⟩).drop firstIdx
    if rest.all (fun p => upperOk eb p.1) then
      rest ++ collectLoop t eb (j + 1) 0
    else rest.takeWhile (fun p => upperOk eb p.1)
  else []
termination_by t.leaves.length - j
decreasing_by omega

/-- `BPlusTreeMap::collect_range_bounds` (iterate.rs:377-441). -/
def collectRangeBounds (t : TreeModel K V) (sb eb : Bound K) : List (K × V) :=
  let leafOpt := match sb with
    | .unbounded => leftmostLeaf t
    | .included k => leafForKey t k
    | .excluded k => leafForKey t k
  match leafOpt with
  | none => []
  | some j0 =>
    let firstIdx := match sb with
      | .unbounded => 0
      | .included k => startIndex (getLeaf t j0) k false
      | .excluded k => startIndex (getLeaf t j0) k true
    collectLoop t eb j0 firstIdx

/-- `BPlusTreeMap::items_range` (iterate.rs:330-340): eagerly collects
`collect_range_bounds(Included/Unbounded, Excluded/Unbounded)` into a vector. -/
def itemsRange (t : TreeModel K V) (s e : Option K) : ItemsIter K V :=
  .vec (collectRangeBounds t
    (match s with | none => .unbounded | some k => .included k)
    (match e with | none => .unbounded | some k => .excluded k))

/-- Repeated `next` calls, collecting yielded pairs, with fuel bounding the
number of calls (the Rust loops stop at the first `None`). -/
def drainF (t : TreeModel K V) : ItemsIter K V → Nat → List (K × V)
  | _, 0 => []
  | it, fuel + 1 =>
    match next t it with
    | (none, _) => []
    | (some p, it') => p :: drainF t it' fuel

/-- Repeated `next_back` calls, collecting yielded pairs. -/
def drainB (t : TreeModel K V) : ItemsIter K V → Nat → List (K × V)
  | _, 0 => []
  | it, fuel + 1 =>
    match nextBack t it with
    | (none, _) => []
    | (some p, it') => p :: drainB t it' fuel

/-- The cursor state after `m` forward `next` calls. -/
def stepN (t : TreeModel K V) : Nat → ItemsIter K V → ItemsIter K V
  | 0, it => it
  | m + 1, it => stepN t m (next t it).2

/-- `BPlusTreeMap::first` (iterate.rs:369-371): `self.items().next()`. -/
def first (t : TreeModel K V) : Option (K × V) :=
  (next t (items t)).1

/-- `BPlusTreeMap::last` (iterate.rs:373-375): `self.items().last()`, i.e.
the final pair yielded by forward exhaustion (`Iterator::last`); under the
well-formedness invariant the items cursor is exhausted within
`numItems t + 1` calls. -/
def last (t : TreeModel K V) : Option (K × V) :=
  (drainF t (items t) (numItems t + 1)).getLast?

/-- Well-formedness of the leaf level at rest (spec §3.3): every leaf is
non-empty (I1, with the empty map represented by no leaves at all) and the
keys across the leaf list are strictly ascending (I2 + I4). -/
def WF (t : TreeModel K V) : Prop :=
  (∀ l ∈ t.leaves, 0 < l.length) ∧ (allPairs t).Pairwise (fun p q => p.1 < q.1)

instance (t : TreeModel K V) : Decidable (WF t) :=
  inferInstanceAs (Decidable (_ ∧ _))

/-! ### Generic list helpers -/

lemma take_takeWhile_length {α : Type} (p : α → Bool) (l : List α) :
    l.take (l.takeWhile p).length = l.takeWhile p := by
  induction l with
  | nil => rfl
  | cons a l ih =>
    by_cases h : p a
    · simp [List.takeWhile_cons, h, ih]
    · simp [List.takeWhile_cons, h]

lemma drop_takeWhile_length {α : Type} (p : α → Bool) (l : List α) :
    l.drop (l.takeWhile p).length = l.dropWhile p := by
  induction l with
  | nil => rfl
  | cons a l ih =>
    by_cases h : p a
    · simp [List.takeWhile_cons, List.dropWhile_cons, h, ih]
    · simp [List.takeWhile_cons, List.dropWhile_cons, h]

lemma takeWhile_append_all {α : Type} {p : α → Bool} {A B : List α}
    (h : ∀ a ∈ A, p a = true) :
    (A ++ B).takeWhile p = A ++ B.takeWhile p := by
  induction A with
  | nil => rfl
  | cons a A ih =>
    have ha := h a (by simp)
    simp only [List.cons_append, List.takeWhile_cons, ha, if_true]
    simp [ih fun x hx => h x (by simp [hx])]

lemma takeWhile_append_stop {α : Type} {p : α → Bool} {A B : List α}
    (h : ¬ ∀ a ∈ A, p a = true) :
    (A ++ B).takeWhile p = A.takeWhile p := by
  induction A with
  | nil => simp at h
  | cons a A ih =>
    by_cases ha : p a
    · simp only [List.cons_append, List.takeWhile_cons, ha, if_true]
      have : ¬ ∀ x ∈ A, p x = true := by
        intro hall; exact h fun x hx => by
          rcases List.mem_cons.1 hx with rfl | hx'
          · exact ha
          · exact hall x hx'
      simp [ih this]
    · simp [List.takeWhile_cons, ha]

lemma takeWhile_eq_filter_of_sorted {α : Type} {R : α → α → Prop} {p : α → Bool}
    {l : List α} (hl : l.Pairwise R)
    (hp : ∀ a b, R a b → p b = true → p a = true) :
    l.takeWhile p = l.filter p := by
  induction l with
  | nil => rfl
  | cons a l ih =>
    rcases List.pairwise_cons.1 hl with ⟨ha, hl'⟩
    by_cases h : p a
    · simp [List.takeWhile_cons, List.filter_cons, h, ih hl']
    · have : l.filter p = [] := List.filter_eq_nil_iff.2 fun b hb hpb => by
        exact h (hp a b (ha b hb) hpb)
      simp [List.takeWhile_cons, List.filter_cons, h, this]

/-! ### Positions and suffixes of the leaf list -/

lemma getLeaf_of_lt {t : TreeModel K V} {j : Nat} (h : j < t.leaves.length) :
    getLeaf t j = t.leaves[j] := by
  simp [getLeaf, List.getD_eq_getElem?_getD, List.getElem?_eq_getElem h]

lemma getLeaf_of_le {t : TreeModel K V} {j : Nat} (h : t.leaves.length ≤ j) :
    getLeaf t j = [] := by
  simp [getLeaf, List.getD_eq_getElem?_getD, List.getElem?_eq_none h]

/-- The pairs not yet yielded by a forward cursor standing at leaf `j`,
in-leaf index `i`. -/
def suffixAt (t : TreeModel K V) (j i : Nat) : List (K × V) :=
  (getLeaf t j).drop i ++ (t.leaves.drop (j + 1)).flatten

/-- The pairs already passed by a backward cursor standing at leaf `j`,
in-leaf index `i`. -/
def upToPos (t : TreeModel K V) (j i : Nat) : List (K × V) :=
  (t.leaves.take j).flatten ++ (getLeaf t j).take i

lemma flatten_drop_eq {L : List (List (K × V))} {j : Nat} (h : j < L.length) :
    (L.drop j).flatten = L[j] ++ (L.drop (j + 1)).flatten := by
  rw [List.drop_eq_getElem_cons h, List.flatten_cons]

lemma suffixAt_of_out {t : TreeModel K V} {j : Nat} (h : t.leaves.length ≤ j) (i : Nat) :
    suffixAt t j i = [] := by
  simp [suffixAt, getLeaf_of_le h, List.drop_eq_nil_of_le (le_trans h (Nat.le_succ_of_le le_rfl))]

lemma suffixAt_zero {t : TreeModel K V} {j : Nat} (h : j < t.leaves.length) :
    suffixAt t j 0 = (t.leaves.drop j).flatten := by
  simp [suffixAt, getLeaf_of_lt h, flatten_drop_eq h]

lemma suffixAt_exhausted {t : TreeModel K V} {j i : Nat} (h : (getLeaf t j).length ≤ i) :
    suffixAt t j i = (t.leaves.drop (j + 1)).flatten := by
  simp [suffixAt, List.drop_eq_nil_of_le h]

lemma suffixAt_cons {t : TreeModel K V} {j i : Nat} (h : i < (getLeaf t j).length) :
    suffixAt t j i = (getLeaf t j).get ⟨i, h⟩ :: suffixAt t j (i + 1) := by
  simp only [suffixAt, List.drop_eq_getElem_cons h, List.cons_append, List.get_eq_getElem]

/-! ### The forward stepping loop against the suffix of the leaf list -/

/-- One call of the forward loop, classified by the unread suffix: at an
empty suffix or a failed end bound it terminates (null front leaf, remaining
zeroed); otherwise it yields the suffix's head and stands on its tail. -/
lemma itemsNextLoop_spec (t : TreeModel K V) (eb : Bound K) (rem : Nat) (j i : Nat) :
    (suffixAt t j i = [] ∧ ∃ i2, itemsNextLoop t eb rem j i = (none, none, i2, 0))
    ∨ (∃ p rest, suffixAt t j i = p :: rest ∧
        ((upperOk eb p.1 = false ∧ ∃ i2, itemsNextLoop t eb rem j i = (none, none, i2, 0))
         ∨ (upperOk eb p.1 = true ∧
             ∃ j2 i2, itemsNextLoop t eb rem j i = (some p, some j2, i2, rem - 1)
               ∧ suffixAt t j2 i2 = rest))) := by
  have H : ∀ d j i, t.leaves.length - j ≤ d →
      (suffixAt t j i = [] ∧ ∃ i2, itemsNextLoop t eb rem j i = (none, none, i2, 0))
      ∨ (∃ p rest, suffixAt t j i = p :: rest ∧
          ((upperOk eb p.1 = false ∧ ∃ i2, itemsNextLoop t eb rem j i = (none, none, i2, 0))
           ∨ (upperOk eb p.1 = true ∧
               ∃ j2 i2, itemsNextLoop t eb rem j i = (some p, some j2, i2, rem - 1)
                 ∧ suffixAt t j2 i2 = rest))) := by
    intro d
    induction d with
    | zero =>
      intro j i hle
      have hj : t.leaves.length ≤ j := by omega
      left
      refine ⟨suffixAt_of_out hj i, i, ?_⟩
      rw [itemsNextLoop]
      have hleaf : getLeaf t j = [] := getLeaf_of_le hj
      simp [hleaf, show ¬ j + 1 < t.leaves.length by omega]
    | succ d ih =>
      intro j i hle
      by_cases h : i < (getLeaf t j).length
      · by_cases hq : upperOk eb ((getLeaf t j).get ⟨i, h⟩).1
        · right
          refine ⟨_, _, suffixAt_cons h, Or.inr ⟨hq, j, i + 1, ?_, rfl⟩⟩
          rw [itemsNextLoop]
          simp only [List.get_eq_getElem] at hq
          simp [h, hq]
        · right
          refine ⟨_, _, suffixAt_cons h, Or.inl ⟨by simpa using hq, i, ?_⟩⟩
          rw [itemsNextLoop]
          simp only [List.get_eq_getElem] at hq
          simp [h, hq]
      · have hstep : ∀ P : Option (K × V) × Option Nat × Nat × Nat → Prop,
            (j + 1 < t.leaves.length → P (itemsNextLoop t eb rem (j + 1) 0)) →
            (¬ j + 1 < t.leaves.length → P (none, none, i, 0)) →
            P (itemsNextLoop t eb rem j i) := by
          intro P h1 h2
          rw [itemsNextLoop]
          by_cases h2' : j + 1 < t.leaves.length
          · simpa [h, h2'] using h1 h2'
          · simpa [h, h2'] using h2 h2'
        by_cases h2 : j + 1 < t.leaves.length
        · have hsfx : suffixAt t j i = suffixAt t (j + 1) 0 := by
            rw [suffixAt_exhausted (by omega), suffixAt_zero h2]
          rcases ih (j + 1) 0 (by omega) with ⟨hnil, i2, heq⟩ | ⟨p, rest, hcons, hrest⟩
          · left
            refine ⟨by rw [hsfx, hnil], i2, ?_⟩
            exact hstep (fun r => r = (none, none, i2, 0)) (fun _ => heq) (fun hc => absurd h2 hc)
          · right
            refine ⟨p, rest, by rw [hsfx, hcons], ?_⟩
            rcases hrest with ⟨hq, i2, heq⟩ | ⟨hq, j2, i2, heq, hs⟩
            · exact Or.inl ⟨hq, i2,
                hstep (fun r => r = (none, none, i2, 0)) (fun _ => heq) (fun hc => absurd h2 hc)⟩
            · exact Or.inr ⟨hq, j2, i2,
                hstep (fun r => r = (some p, some j2, i2, rem - 1)) (fun _ => heq)
                  (fun hc => absurd h2 hc), hs⟩
        · left
          have hj1 : t.leaves.length ≤ j + 1 := by omega
          refine ⟨?_, i, ?_⟩
          · rw [suffixAt_exhausted (by omega)]
            simp [List.drop_eq_nil_of_le hj1]
          · rw [itemsNextLoop]
            simp [h, h2]
  exact H (t.leaves.length - j) j i le_rfl

/-! ### Forward stepping of the lazy cursor -/

lemma initCursor_initialized (t : TreeModel K V) (c : LazyCursor K) :
    (initCursor t c).initialized = true := by
  by_cases h : c.initialized
  · simp [initCursor, h]
  · simp [initCursor, h]

lemma initCursor_of_initialized {t : TreeModel K V} {c : LazyCursor K}
    (h : c.initialized = true) : initCursor t c = c := by
  simp [initCursor, h]

/-- The forward cursor's relation to the pairs it has not yet passed:
initialized, and either terminated (null front leaf) with nothing left, or
standing at a position whose suffix is exactly `s`. -/
def FrontInv (t : TreeModel K V) (c : LazyCursor K) (s : List (K × V)) : Prop :=
  c.initialized = true ∧
    ((c.frontLeaf = none ∧ s = []) ∨
      ∃ j i, c.frontLeaf = some j ∧ c.frontIdx = i ∧ suffixAt t j i = s)

lemma next_step_yield {t : TreeModel K V} {c : LazyCursor K} {p : K × V}
    {rest : List (K × V)} (hInv : FrontInv t c (p :: rest))
    (hq : upperOk c.endBound p.1 = true) :
    ∃ c', next t (.lazy c) = (some p, .lazy c') ∧ FrontInv t c' rest ∧
      c'.endBound = c.endBound ∧ c'.startBound = c.startBound ∧
      c'.backLeaf = c.backLeaf ∧ c'.backIdx = c.backIdx ∧
      c'.remaining = c.remaining - 1 := by
  obtain ⟨hinit, hpos⟩ := hInv
  rcases hpos with ⟨_, hs⟩ | ⟨j, i, hfl, hfi, hsfx⟩
  · cases hs
  · have hc1 : initCursor t c = c := initCursor_of_initialized hinit
    rcases itemsNextLoop_spec t c.endBound c.remaining j i with
      ⟨hnil, _⟩ | ⟨p', rest', hcons, hcase⟩
    · rw [hsfx] at hnil; cases hnil
    · rw [hsfx] at hcons
      injection hcons with hp hrest
      subst hp; subst hrest
      rcases hcase with ⟨hq', _⟩ | ⟨_, j2, i2, heq, hs2⟩
      · rw [hq'] at hq; cases hq
      · refine ⟨{c with frontLeaf := some j2, frontIdx := i2, remaining := c.remaining - 1},
          ?_, ?_, rfl, rfl, rfl, rfl, rfl⟩
        · simp only [next, hc1, hfl, hfi, heq]
        · exact ⟨hinit, Or.inr ⟨j2, i2, rfl, rfl, hs2⟩⟩

lemma next_step_none {t : TreeModel K V} {c : LazyCursor K} {s : List (K × V)}
    (hInv : FrontInv t c s)
    (hs : s = [] ∨ ∃ p rest, s = p :: rest ∧ upperOk c.endBound p.1 = false) :
    (next t (.lazy c)).1 = none := by
  obtain ⟨hinit, hpos⟩ := hInv
  have hc1 : initCursor t c = c := initCursor_of_initialized hinit
  rcases hpos with ⟨hfl, hsnil⟩ | ⟨j, i, hfl, hfi, hsfx⟩
  · simp only [next, hc1, hfl]
  · rcases itemsNextLoop_spec t c.endBound c.remaining j i with
      ⟨hnil, i2, heq⟩ | ⟨p', rest', hcons, hcase⟩
    · simp only [next, hc1, hfl, hfi, heq]
    · rw [hsfx] at hcons
      rcases hs with rfl | ⟨p, rest, rfl, hq⟩
      · cases hcons
      · injection hcons with hp hrest
        subst hp
        rcases hcase with ⟨_, i2, heq⟩ | ⟨hq', _⟩
        · simp only [next, hc1, hfl, hfi, heq]
        · rw [hq'] at hq; cases hq

lemma drainF_of_none {t : TreeModel K V} {it : ItemsIter K V}
    (h : (next t it).1 = none) : ∀ fuel, drainF t it fuel = [] := by
  intro fuel
  cases fuel with
  | zero => rfl
  | succ fuel =>
    rcases hn : next t it with ⟨r, it'⟩
    rw [hn] at h
    simp at h
    subst h
    simp [drainF, hn]

lemma drainF_succ_yield {t : TreeModel K V} {it it' : ItemsIter K V} {p : K × V}
    {fuel : Nat} (h : next t it = (some p, it')) :
    drainF t it (fuel + 1) = p :: drainF t it' fuel := by
  simp [drainF, h]

/-- Forward draining from an invariant state yields, in order, the suffix's
longest head segment satisfying the end bound. -/
lemma drainF_inv {t : TreeModel K V} :
    ∀ (fuel : Nat) (s : List (K × V)) (c : LazyCursor K), FrontInv t c s →
      s.length ≤ fuel →
      drainF t (.lazy c) fuel = s.takeWhile (fun p => upperOk c.endBound p.1) := by
  intro fuel
  induction fuel with
  | zero =>
    intro s c _ hle
    have hs : s = [] := List.length_eq_zero.mp (Nat.le_zero.mp hle)
    subst hs
    rfl
  | succ fuel ih =>
    intro s c hInv hle
    cases s with
    | nil =>
      rw [drainF_of_none (next_step_none hInv (Or.inl rfl))]
      rfl
    | cons p rest =>
      by_cases hq : upperOk c.endBound p.1
      · obtain ⟨c', hnext, hInv', hend, _, _, _, _⟩ := next_step_yield hInv hq
        rw [drainF_succ_yield hnext, ih rest c' hInv' (by simpa using hle)]
        simp [List.takeWhile_cons, hq, hend]
      · rw [drainF_of_none (next_step_none hInv (Or.inr ⟨p, rest, rfl, by simpa using hq⟩))]
        simp [List.takeWhile_cons, hq]

/-- Forward stepping with an unbounded end bound: after `m ≤ |s|` steps the
cursor stands `m` pairs further on; back fields, bounds are untouched and
`remaining` has gone down by `m`. -/
lemma stepN_inv {t : TreeModel K V} :
    ∀ (m : Nat) (c : LazyCursor K) (s : List (K × V)), FrontInv t c s →
      c.endBound = .unbounded → m ≤ s.length →
      ∃ c', stepN t m (.lazy c) = .lazy c' ∧ FrontInv t c' (s.drop m) ∧
        c'.endBound = c.endBound ∧ c'.startBound = c.startBound ∧
        c'.backLeaf = c.backLeaf ∧ c'.backIdx = c.backIdx ∧
        c'.remaining = c.remaining - m := by
  intro m
  induction m with
  | zero =>
    intro c s hInv _ _
    exact ⟨c, rfl, by simpa using hInv, rfl, rfl, rfl, rfl, rfl⟩
  | succ m ih =>
    intro c s hInv hend hle
    cases s with
    | nil => simp at hle
    | cons p rest =>
      have hq : upperOk c.endBound p.1 = true := by rw [hend]; rfl
      obtain ⟨c1, hnext, hInv1, hend1, hstart1, hbl1, hbi1, hrem1⟩ :=
        next_step_yield hInv hq
      obtain ⟨c', hstep, hInv', hend', hstart', hbl', hbi', hrem'⟩ :=
        ih c1 rest hInv1 (hend1.trans hend) (by simpa using hle)
      refine ⟨c', ?_, by simpa using hInv', hend'.trans hend1,
        hstart'.trans hstart1, hbl'.trans hbl1, hbi'.trans hbi1, ?_⟩
      · show stepN t (m + 1) (.lazy c) = .lazy c'
        simp only [stepN, hnext]
        exact hstep
      · rw [hrem', hrem1]
        omega

/-! ### The initial states of `items` and `range` cursors -/

lemma takeWhile_unbounded (s : List (K × V)) :
    s.takeWhile (fun p => upperOk (Bound.unbounded : Bound K) p.1) = s := by
  induction s with
  | nil => rfl
  | cons p rest ih => simp [List.takeWhile_cons, upperOk, ih]

lemma leaves_ne_nil_of_numItems {t : TreeModel K V} (h : numItems t ≠ 0) :
    t.leaves ≠ [] := by
  intro hnil
  apply h
  simp [numItems, allPairs, hnil]

/-- The `items()` cursor: initialized, standing on the whole pair sequence,
unbounded on both sides, `remaining` the item count. -/
lemma items_front_inv (t : TreeModel K V) :
    ∃ c, items t = .lazy c ∧ FrontInv t c (allPairs t) ∧
      c.endBound = Bound.unbounded ∧ c.startBound = Bound.unbounded ∧
      c.remaining = numItems t := by
  by_cases h : numItems t = 0
  · refine ⟨⟨none, 0, none, 0, 0, .unbounded, .unbounded, true⟩, ?_, ?_, rfl, rfl, ?_⟩
    · simp [items, h]
    · exact ⟨rfl, Or.inl ⟨rfl, by simpa [numItems] using h⟩⟩
    · simp [h]
  · have hne : t.leaves ≠ [] := leaves_ne_nil_of_numItems h
    have hlen : 0 < t.leaves.length := List.length_pos.mpr hne
    refine ⟨⟨leftmostLeaf t, 0, rightmostLeaf t,
      (match rightmostLeaf t with | some j => (getLeaf t j).length | none => 0),
      numItems t, .unbounded, .unbounded, true⟩, ?_, ?_, rfl, rfl, rfl⟩
    · simp [items, h]
    · refine ⟨rfl, Or.inr ⟨0, 0, ?_, rfl, ?_⟩⟩
      · simp [leftmostLeaf, hne]
      · rw [suffixAt_zero hlen]
        simp [allPairs]

/-- The back fields of a nonempty map's `items()` cursor: (tail leaf, tail
leaf's length). -/
lemma items_back_fields {t : TreeModel K V} (h : numItems t ≠ 0) :
    ∃ c, items t = .lazy c ∧ c.backLeaf = some (t.leaves.length - 1) ∧
      c.backIdx = (getLeaf t (t.leaves.length - 1)).length ∧
      c.startBound = Bound.unbounded := by
  have hne : t.leaves ≠ [] := leaves_ne_nil_of_numItems h
  have hr : rightmostLeaf t = some (t.leaves.length - 1) := by
    simp [rightmostLeaf, hne]
  refine ⟨⟨leftmostLeaf t, 0, rightmostLeaf t,
    (match rightmostLeaf t with | some j => (getLeaf t j).length | none => 0),
    numItems t, .unbounded, .unbounded, true⟩, ?_, hr, ?_, rfl⟩
  · simp [items, h]
  · rw [hr]

/-- A full forward drain of `items()` yields every pair in order. -/
lemma drainF_items (t : TreeModel K V) {fuel : Nat} (hfuel : numItems t ≤ fuel) :
    drainF t (items t) fuel = allPairs t := by
  obtain ⟨c, hc, hInv, hend, _, _⟩ := items_front_inv t
  rw [hc, drainF_inv fuel (allPairs t) c hInv hfuel, hend, takeWhile_unbounded]

lemma initCursor_idem (t : TreeModel K V) (c : LazyCursor K) :
    initCursor t (initCursor t c) = initCursor t c :=
  initCursor_of_initialized (initCursor_initialized t c)

lemma next_lazy_init (t : TreeModel K V) (c : LazyCursor K) :
    next t (.lazy c) = next t (.lazy (initCursor t c)) := by
  simp only [next, initCursor_idem]

lemma drainF_congr_first {t : TreeModel K V} {it it' : ItemsIter K V}
    (h : next t it = next t it') (fuel : Nat) :
    drainF t it fuel = drainF t it' fuel := by
  cases fuel with
  | zero => rfl
  | succ fuel => simp only [drainF, h]

/-- The suffix designated by a front position (null leaf → nothing). -/
def frontSuffix (t : TreeModel K V) : Option Nat × Nat → List (K × V)
  | (none, _) => []
  | (some j, i) => suffixAt t j i

/-- The un-normalized start position: the leaf `leaf_for_key` finds and the
in-leaf index the binary search gives (before the advance to the next leaf
that `Items::next`'s lazy init performs when the index is past the end). -/
def rawStartPos (t : TreeModel K V) (sb : Bound K) : Option Nat × Nat :=
  match sb with
  | .unbounded => (leftmostLeaf t, 0)
  | .included k =>
    match leafForKey t k with
    | none => (none, 0)
    | some j => (some j, startIndex (getLeaf t j) k false)
  | .excluded k =>
    match leafForKey t k with
    | none => (none, 0)
    | some j => (some j, startIndex (getLeaf t j) k true)

lemma frontSuffix_norm (t : TreeModel K V) (j idx : Nat) :
    frontSuffix t
      (if (getLeaf t j).length ≤ idx then (nextLeafPtr t j, 0) else (some j, idx)) =
      suffixAt t j idx := by
  by_cases h : (getLeaf t j).length ≤ idx
  · simp only [h, if_true]
    unfold nextLeafPtr
    by_cases h2 : j + 1 < t.leaves.length
    · simp only [h2, if_true, frontSuffix]
      rw [suffixAt_zero h2, suffixAt_exhausted h, flatten_drop_eq h2]
    · simp only [h2, if_false, frontSuffix]
      rw [suffixAt_exhausted h, List.drop_eq_nil_of_le (by omega)]
      rfl
  · simp [h, frontSuffix]

lemma frontSuffix_lazyInitFront (t : TreeModel K V) (sb : Bound K) :
    frontSuffix t (lazyInitFront t sb) = frontSuffix t (rawStartPos t sb) := by
  cases sb with
  | unbounded => rfl
  | included k =>
    simp only [lazyInitFront, rawStartPos]
    cases leafForKey t k with
    | none => rfl
    | some j => exact frontSuffix_norm t j _
  | excluded k =>
    simp only [lazyInitFront, rawStartPos]
    cases leafForKey t k with
    | none => rfl
    | some j => exact frontSuffix_norm t j _

lemma frontInv_of_pos {t : TreeModel K V} {c : LazyCursor K}
    (h1 : c.initialized = true) {pos : Option Nat × Nat}
    (hfl : c.frontLeaf = pos.1) (hfi : c.frontIdx = pos.2) :
    FrontInv t c (frontSuffix t pos) := by
  rcases pos with ⟨fl, fi⟩
  cases fl with
  | none => exact ⟨h1, Or.inl ⟨hfl, rfl⟩⟩
  | some j => exact ⟨h1, Or.inr ⟨j, fi, hfl, hfi, rfl⟩⟩

/-- Forward-draining a fresh `range` cursor yields the head segment of its
start-position suffix allowed by the end bound. -/
lemma drainF_range (t : TreeModel K V) (sb eb : Bound K) {fuel : Nat}
    (hfuel : (frontSuffix t (rawStartPos t sb)).length ≤ fuel) :
    drainF t (range t sb eb) fuel =
      (frontSuffix t (rawStartPos t sb)).takeWhile (fun p => upperOk eb p.1) := by
  have hinit :
      initCursor t (⟨none, 0, none, 0, 0, sb, eb, false⟩ : LazyCursor K) =
        ⟨(lazyInitFront t sb).1, (lazyInitFront t sb).2, none, 0, 0, sb, eb, true⟩ := by
    simp [initCursor]
  have hstep := drainF_congr_first
    (next_lazy_init t (⟨none, 0, none, 0, 0, sb, eb, false⟩ : LazyCursor K)) fuel
  rw [show range t sb eb = .lazy ⟨none, 0, none, 0, 0, sb, eb, false⟩ from rfl, hstep, hinit]
  have hInv : FrontInv t
      (⟨(lazyInitFront t sb).1, (lazyInitFront t sb).2, none, 0, 0, sb, eb, true⟩ : LazyCursor K)
      (frontSuffix t (lazyInitFront t sb)) :=
    frontInv_of_pos rfl rfl rfl
  rw [frontSuffix_lazyInitFront] at hInv
  exact drainF_inv fuel _ _ hInv hfuel

/-! ### The start position against the sorted pair sequence -/

lemma all_gt_of_head_gt {k : K} {s : List (K × V)}
    (hs : s.Pairwise (fun p q => p.1 < q.1))
    (hhead : ∀ p ∈ s.head?, k < p.1) : ∀ x ∈ s, k < x.1 := by
  cases s with
  | nil => intro x hx; cases hx
  | cons p rest =>
    intro x hx
    have hp : k < p.1 := hhead p rfl
    rcases List.mem_cons.1 hx with rfl | hx'
    · exact hp
    · exact hp.trans ((List.pairwise_cons.1 hs).1 x hx')

/-- The in-leaf index `binarySearch` reports, as a `takeWhile` length over
the pairs. -/
lemma binarySearch_index (leaf : List (K × V)) (k : K) :
    ∃ i, i = (leaf.takeWhile (fun p => decide (p.1 < k))).length ∧
      binarySearch (leaf.map Prod.fst) k =
        (if (leaf.map Prod.fst).get? i = some k then .found i else .insertAt i) := by
  refine ⟨(leaf.takeWhile (fun p => decide (p.1 < k))).length, rfl, ?_⟩
  have hmap : ((leaf.map Prod.fst).takeWhile (fun x => decide (x < k))).length =
      (leaf.takeWhile (fun p => decide (p.1 < k))).length := by
    rw [List.takeWhile_map, List.length_map]
    rfl
  simp only [binarySearch, hmap]

/-- Core of the start-position analysis: in a well-formed nonempty tree, the
suffix at (`leafForKey`'s leaf, `startIndex`'s index) is exactly the pairs
whose key passes the start bound. -/
lemma bounded_start_suffix {t : TreeModel K V} (hwf : WF t) (hne : t.leaves ≠ [])
    (k : K) (ex : Bool) (j : Nat)
    (hj : j = (t.leaves.takeWhile (fun l => leafMinLe l k)).length - 1) :
    suffixAt t j (startIndex (getLeaf t j) k ex) =
      (allPairs t).filter (fun p => if ex then decide (k < p.1) else decide (k ≤ p.1)) := by
  have hlenpos : 0 < t.leaves.length := List.length_pos.mpr hne
  set c := (t.leaves.takeWhile (fun l => leafMinLe l k)).length with hc
  have hcle : c ≤ t.leaves.length :=
    (List.takeWhile_sublist (fun l => leafMinLe l k)).length_le
  have htake : t.leaves.take c = t.leaves.takeWhile (fun l => leafMinLe l k) :=
    take_takeWhile_length _ _
  have hdropc : t.leaves.drop c = t.leaves.dropWhile (fun l => leafMinLe l k) :=
    drop_takeWhile_length _ _
  -- the leaf after the takeWhile region has minimum key above k (if it exists)
  have hfailc : ∀ (hcl : c < t.leaves.length), leafMinLe t.leaves[c] k = false := by
    intro hcl
    have hdropne : t.leaves.drop c ≠ [] := by
      have : 0 < (t.leaves.drop c).length := by rw [List.length_drop]; omega
      exact List.length_pos.mp this
    have hhead? : (t.leaves.drop c).head? = some t.leaves[c] := by
      rw [List.head?_eq_getElem?, List.getElem?_drop]
      simp [List.getElem?_eq_getElem hcl]
    have hdropne' : t.leaves.dropWhile (fun l => leafMinLe l k) ≠ [] := by
      rwa [← hdropc]
    have hfail := List.head_dropWhile_not (fun l => leafMinLe l k) t.leaves hdropne'
    rw [hdropc] at hhead?
    have h1 : (t.leaves.dropWhile (fun l => leafMinLe l k)).head? =
        some ((t.leaves.dropWhile (fun l => leafMinLe l k)).head hdropne') :=
      List.head?_eq_head _
    rw [hhead?] at h1
    have hhead : (t.leaves.dropWhile (fun l => leafMinLe l k)).head hdropne' =
        t.leaves[c] := (Option.some_injective _ h1).symm
    rwa [hhead] at hfail
  -- all pairs in the leaves beyond index c have keys above k
  have hCgt : ∀ x ∈ (t.leaves.drop c).flatten, k < x.1 := by
    by_cases hcl : c < t.leaves.length
    · have hfl : (t.leaves.drop c).flatten = t.leaves[c] ++ (t.leaves.drop (c + 1)).flatten :=
        flatten_drop_eq hcl
      have hCsorted : ((t.leaves.drop c).flatten).Pairwise (fun p q => p.1 < q.1) := by
        have hsub : ((t.leaves.drop c).flatten).Sublist (allPairs t) := by
          have : allPairs t = (t.leaves.take c).flatten ++ (t.leaves.drop c).flatten := by
            rw [allPairs, ← List.flatten_append, List.take_append_drop]
          rw [this]
          exact List.sublist_append_right _ _
        exact hwf.2.sublist hsub
      refine all_gt_of_head_gt hCsorted ?_
      intro p hp
      -- the head is the head of leaf c, whose minimum exceeds k
      have hcne : t.leaves[c] ≠ [] := by
        have := hwf.1 t.leaves[c] (List.getElem_mem hcl)
        exact List.length_pos.mp this
      obtain ⟨qc, lc', hq⟩ := List.exists_cons_of_ne_nil hcne
      have hheadp : ((t.leaves.drop c).flatten).head? = some qc := by
        rw [hfl, hq]
        rfl
      rw [hheadp] at hp
      have hqc : leafMinLe t.leaves[c] k = false := hfailc hcl
      rw [hq] at hqc
      simp only [leafMinLe, List.head?_cons, decide_eq_false_iff_not, not_le] at hqc
      cases hp
      exact hqc
    · intro x hx
      rw [List.drop_eq_nil_of_le (by omega)] at hx
      cases hx

  by_cases hc0 : c = 0
  · -- k precedes every key: the position is (leaf 0, index 0)
    have hj0 : j = 0 := by omega
    subst hj0
    have hall : ∀ x ∈ allPairs t, k < x.1 := by
      have := hCgt
      rw [hc0] at this
      simpa [allPairs] using this
    have hB : getLeaf t 0 = t.leaves[0] := getLeaf_of_lt hlenpos
    -- the binary search lands at index 0 of leaf 0
    have hBne : t.leaves[0] ≠ [] :=
      List.length_pos.mp (hwf.1 t.leaves[0] (List.getElem_mem hlenpos))
    obtain ⟨b0, B', hBeq⟩ := List.exists_cons_of_ne_nil hBne
    have hb0 : k < b0.1 := by
      apply hall
      have : b0 ∈ t.leaves[0] := by rw [hBeq]; exact List.mem_cons_self _ _
      exact List.mem_flatten.2 ⟨t.leaves[0], List.getElem_mem hlenpos, this⟩
    have hidx : startIndex (getLeaf t 0) k ex = 0 := by
      rw [hB, hBeq]
      obtain ⟨i, hi, hbs⟩ := binarySearch_index (b0 :: B') k
      have hi0 : i = 0 := by
        rw [hi]
        simp [List.takeWhile_cons, not_lt.2 hb0.le]
      subst hi0
      have : ((b0 :: B').map Prod.fst).get? 0 = some b0.1 := rfl
      rw [startIndex, hbs, this]
      have hne' : ¬ (some b0.1 = some k) := by
        intro hcontra
        exact absurd (Option.some_injective _ hcontra) (ne_of_gt hb0)
      simp [hne']
    rw [hidx, suffixAt_zero hlenpos]
    have : (allPairs t).filter (fun p => if ex then decide (k < p.1) else decide (k ≤ p.1)) =
        allPairs t := by
      apply List.filter_eq_self.2
      intro a ha
      cases ex
      · simpa using (hall a ha).le
      · simpa using hall a ha
    rw [this]
    simp [allPairs]
  · -- the found leaf is leaf c-1, whose minimum is ≤ k
    have hjc : j + 1 = c := by omega
    have hjlt : j < t.leaves.length := by omega
    have hB : getLeaf t j = t.leaves[j] := getLeaf_of_lt hjlt
    have hdec : allPairs t =
        (t.leaves.take j).flatten ++ (t.leaves[j] ++ (t.leaves.drop (j + 1)).flatten) := by
      conv_lhs => rw [allPairs, ← List.take_append_drop j t.leaves]
      rw [List.flatten_append, flatten_drop_eq hjlt]
    have hsorted := hwf.2
    rw [hdec] at hsorted
    obtain ⟨hApw, hBCpw, hAB⟩ := List.pairwise_append.1 hsorted
    obtain ⟨hBpw, hCpw, hBC⟩ := List.pairwise_append.1 hBCpw
    have hBne : t.leaves[j] ≠ [] :=
      List.length_pos.mp (hwf.1 t.leaves[j] (List.getElem_mem hjlt))
    obtain ⟨b0, B', hBeq⟩ := List.exists_cons_of_ne_nil hBne
    have hminj : leafMinLe t.leaves[j] k = true := by
      have hjlt' : j < (t.leaves.take c).length := by
        rw [List.length_take]; omega
      have hmem := List.getElem_mem hjlt'
      rw [List.getElem_take] at hmem
      have hmem' : t.leaves[j] ∈ t.leaves.takeWhile (fun l => leafMinLe l k) := by
        rw [← htake]; exact hmem
      exact @List.mem_takeWhile_imp _ (fun l => leafMinLe l k) t.leaves t.leaves[j] hmem'
    have hb0le : b0.1 ≤ k := by
      rw [hBeq] at hminj
      simpa [leafMinLe] using hminj
    have hAk : ∀ a ∈ (t.leaves.take j).flatten, a.1 < k := by
      intro a ha
      have hb0mem : b0 ∈ t.leaves[j] ++ (t.leaves.drop (j + 1)).flatten := by
        rw [hBeq]; exact List.mem_append_left _ (List.mem_cons_self _ _)
      exact lt_of_lt_of_le (hAB a ha b0 hb0mem) hb0le
    have hCk : ∀ x ∈ (t.leaves.drop (j + 1)).flatten, k < x.1 := by
      rw [hjc]; exact hCgt
    -- predicate helpers, independent of the bound's exclusivity
    have hPlt : ∀ x : K × V, x.1 < k →
        (if ex then decide (k < x.1) else decide (k ≤ x.1)) = false := by
      intro x hx; cases ex <;> simp [not_lt.2 hx.le, not_le.2 hx]
    have hPgt : ∀ x : K × V, k < x.1 →
        (if ex then decide (k < x.1) else decide (k ≤ x.1)) = true := by
      intro x hx; cases ex <;> simp [hx, hx.le]
    have hfA : (t.leaves.take j).flatten.filter
        (fun p => if ex then decide (k < p.1) else decide (k ≤ p.1)) = [] :=
      List.filter_eq_nil_iff.2 (fun a ha => by simp [hPlt a (hAk a ha)])
    have hfC : (t.leaves.drop (j + 1)).flatten.filter
        (fun p => if ex then decide (k < p.1) else decide (k ≤ p.1)) =
        (t.leaves.drop (j + 1)).flatten :=
      List.filter_eq_self.2 (fun a ha => hPgt a (hCk a ha))
    -- the in-leaf position
    obtain ⟨i0, hi0, hbs⟩ := binarySearch_index t.leaves[j] k
    have hTWlt : ∀ x ∈ t.leaves[j].takeWhile (fun p : K × V => decide (p.1 < k)), x.1 < k := by
      intro x hx
      simpa using List.mem_takeWhile_imp hx
    have hfTW : (t.leaves[j].takeWhile (fun p : K × V => decide (p.1 < k))).filter
        (fun p => if ex then decide (k < p.1) else decide (k ≤ p.1)) = [] :=
      List.filter_eq_nil_iff.2 (fun a ha => by simp [hPlt a (hTWlt a ha)])
    have hdropB : t.leaves[j].drop i0 =
        t.leaves[j].dropWhile (fun p : K × V => decide (p.1 < k)) := by
      rw [hi0]; exact drop_takeWhile_length _ _
    have hsplitB : t.leaves[j].takeWhile (fun p : K × V => decide (p.1 < k)) ++
        t.leaves[j].dropWhile (fun p : K × V => decide (p.1 < k)) = t.leaves[j] :=
      List.takeWhile_append_dropWhile _ _
    rcases hdw : t.leaves[j].dropWhile (fun p : K × V => decide (p.1 < k)) with _ | ⟨d0, DW'⟩
    · -- every key of leaf j is below k: the position is one past the leaf
      have hgetnone : (t.leaves[j].map Prod.fst).get? i0 = none := by
        rw [List.get?_eq_getElem?, List.getElem?_map]
        have h0 : (t.leaves[j].drop i0)[0]? = none := by rw [hdropB, hdw]; simp
        rw [List.getElem?_drop] at h0
        simp only [Nat.add_zero] at h0
        rw [h0]
        rfl
      have hidx : startIndex (getLeaf t j) k ex = i0 := by
        rw [hB, startIndex, hbs, hgetnone]
        cases ex <;> simp
      have hfB : t.leaves[j].filter
          (fun p => if ex then decide (k < p.1) else decide (k ≤ p.1)) = [] := by
        conv_lhs => rw [← hsplitB]
        rw [List.filter_append, hfTW, hdw]
        rfl
      rw [hidx]
      show (getLeaf t j).drop i0 ++ (t.leaves.drop (j + 1)).flatten = _
      rw [hB, hdropB, hdw, hdec, List.filter_append, List.filter_append, hfA, hfB, hfC]
      rfl
    · -- the dropWhile part starts with the first key not below k
      have hd0notlt : ¬ d0.1 < k := by
        have hp := List.head?_dropWhile_not (fun p : K × V => decide (p.1 < k)) t.leaves[j]
        rw [hdw] at hp
        simpa using hp
      have hBdrop_i0 : t.leaves[j].drop i0 = d0 :: DW' := by rw [hdropB, hdw]
      have hget : (t.leaves[j].map Prod.fst).get? i0 = some d0.1 := by
        rw [List.get?_eq_getElem?, List.getElem?_map]
        have h0 : (t.leaves[j].drop i0)[0]? = some d0 := by rw [hBdrop_i0]; simp
        rw [List.getElem?_drop] at h0
        simp only [Nat.add_zero] at h0
        rw [h0]
        rfl
      have hDWsub : (d0 :: DW').Sublist t.leaves[j] := by
        rw [← hdw]; exact List.dropWhile_sublist _
      have hDWpw := List.Pairwise.sublist hDWsub hBpw
      have hDW' : ∀ x ∈ DW', d0.1 < x.1 := (List.pairwise_cons.1 hDWpw).1
      by_cases hd0k : d0.1 = k
      · -- the probe key is present at index i0
        have hfound : binarySearch (t.leaves[j].map Prod.fst) k = .found i0 := by
          rw [hbs, hget, hd0k]
          simp
        cases ex with
        | false =>
          have hidx : startIndex (getLeaf t j) k false = i0 := by
            rw [hB, startIndex, hfound]
            simp
          have hfTW' : (t.leaves[j].takeWhile (fun p : K × V => decide (p.1 < k))).filter
              (fun p => decide (k ≤ p.1)) = [] :=
            List.filter_eq_nil_iff.2 fun a ha => by simp [not_le.2 (hTWlt a ha)]
          have hfB : t.leaves[j].filter (fun p => decide (k ≤ p.1)) = d0 :: DW' := by
            conv_lhs => rw [← hsplitB]
            rw [List.filter_append, hdw, hfTW', List.filter_cons]
            have hd0 : decide (k ≤ d0.1) = true := by simp [hd0k.ge]
            rw [if_pos hd0]
            have h2 : DW'.filter (fun p => decide (k ≤ p.1)) = DW' :=
              List.filter_eq_self.2 fun a ha => by
                simp [le_of_lt (hd0k ▸ hDW' a ha)]
            rw [h2]
            rfl
          rw [hidx]
          show (getLeaf t j).drop i0 ++ (t.leaves.drop (j + 1)).flatten = _
          have hP : (fun p : K × V => if false = true then decide (k < p.1) else decide (k ≤ p.1)) =
              (fun p : K × V => decide (k ≤ p.1)) := by
            funext p; simp
          rw [hB, hBdrop_i0, hdec, hP, List.filter_append, List.filter_append]
          have hfA' : (t.leaves.take j).flatten.filter (fun p => decide (k ≤ p.1)) = [] :=
            List.filter_eq_nil_iff.2 fun a ha => by simp [not_le.2 (hAk a ha)]
          have hfC' : (t.leaves.drop (j + 1)).flatten.filter (fun p => decide (k ≤ p.1)) =
              (t.leaves.drop (j + 1)).flatten :=
            List.filter_eq_self.2 fun a ha => by simp [(hCk a ha).le]
          rw [hfA', hfB, hfC']
          rfl
        | true =>
          have hidx : startIndex (getLeaf t j) k true = i0 + 1 := by
            rw [hB, startIndex, hfound]
            simp
          have hfTW' : (t.leaves[j].takeWhile (fun p : K × V => decide (p.1 < k))).filter
              (fun p => decide (k < p.1)) = [] :=
            List.filter_eq_nil_iff.2 fun a ha => by simp [not_lt.2 (hTWlt a ha).le]
          have hfB : t.leaves[j].filter (fun p => decide (k < p.1)) = DW' := by
            conv_lhs => rw [← hsplitB]
            rw [List.filter_append, hdw, hfTW', List.filter_cons]
            have hd0 : ¬ (decide (k < d0.1) = true) := by simp [hd0k]
            rw [if_neg hd0]
            have h2 : DW'.filter (fun p => decide (k < p.1)) = DW' :=
              List.filter_eq_self.2 fun a ha => by
                simp [hd0k ▸ hDW' a ha]
            rw [h2]
            rfl
          have hdropB1 : t.leaves[j].drop (i0 + 1) = DW' := by
            have h3 := List.drop_drop 1 i0 t.leaves[j]
            rw [hBdrop_i0] at h3
            simpa using h3.symm
          rw [hidx]
          show (getLeaf t j).drop (i0 + 1) ++ (t.leaves.drop (j + 1)).flatten = _
          have hP : (fun p : K × V => if true = true then decide (k < p.1) else decide (k ≤ p.1)) =
              (fun p : K × V => decide (k < p.1)) := by
            funext p; simp
          rw [hB, hdropB1, hdec, hP, List.filter_append, List.filter_append]
          have hfA' : (t.leaves.take j).flatten.filter (fun p => decide (k < p.1)) = [] :=
            List.filter_eq_nil_iff.2 fun a ha => by simp [not_lt.2 (hAk a ha).le]
          have hfC' : (t.leaves.drop (j + 1)).flatten.filter (fun p => decide (k < p.1)) =
              (t.leaves.drop (j + 1)).flatten :=
            List.filter_eq_self.2 fun a ha => by simp [hCk a ha]
          rw [hfA', hfB, hfC']
          rfl
      · -- the probe key is absent: d0's key already exceeds k
        have hd0gt : k < d0.1 := lt_of_le_of_ne (not_lt.1 hd0notlt) (Ne.symm hd0k)
        have hins : binarySearch (t.leaves[j].map Prod.fst) k = .insertAt i0 := by
          rw [hbs, hget]
          have : ¬ (some d0.1 = some k) := by
            intro hcontra
            exact hd0k (Option.some_injective _ hcontra)
          simp [this]
        have hidx : startIndex (getLeaf t j) k ex = i0 := by
          rw [hB, startIndex, hins]
        have hfB : t.leaves[j].filter
            (fun p => if ex then decide (k < p.1) else decide (k ≤ p.1)) = d0 :: DW' := by
          conv_lhs => rw [← hsplitB]
          rw [List.filter_append, hfTW, hdw]
          have h2 : (d0 :: DW').filter
              (fun p => if ex then decide (k < p.1) else decide (k ≤ p.1)) = d0 :: DW' :=
            List.filter_eq_self.2 fun a ha => by
              rcases List.mem_cons.1 ha with rfl | ha'
              · exact hPgt a hd0gt
              · exact hPgt a (hd0gt.trans (hDW' a ha'))
          rw [h2]
          rfl
        rw [hidx]
        show (getLeaf t j).drop i0 ++ (t.leaves.drop (j + 1)).flatten = _
        rw [hB, hBdrop_i0, hdec, List.filter_append, List.filter_append, hfA, hfB, hfC]
        rfl

/-- The start position reached from any start bound carries exactly the
pairs whose key passes the bound (`lowerOk`). -/
lemma frontSuffix_rawStartPos {t : TreeModel K V} (hwf : WF t) (sb : Bound K) :
    frontSuffix t (rawStartPos t sb) = (allPairs t).filter (fun p => lowerOk sb p.1) := by
  cases sb with
  | unbounded =>
    have hfilter : (allPairs t).filter (fun p => lowerOk (Bound.unbounded : Bound K) p.1) =
        allPairs t := List.filter_eq_self.2 fun a _ => rfl
    rw [hfilter]
    by_cases hne : t.leaves.isEmpty
    · have : t.leaves = [] := List.isEmpty_iff.1 hne
      simp [rawStartPos, leftmostLeaf, hne, frontSuffix, allPairs, this]
    · have hlen : 0 < t.leaves.length :=
        List.length_pos.mpr (fun h => hne (by simp [h]))
      show frontSuffix t (leftmostLeaf t, 0) = _
      rw [leftmostLeaf, if_neg hne]
      show suffixAt t 0 0 = _
      rw [suffixAt_zero hlen]
      rfl
  | included k =>
    by_cases hne : t.leaves.isEmpty
    · have h0 : t.leaves = [] := List.isEmpty_iff.1 hne
      simp [rawStartPos, leafForKey, hne, frontSuffix, allPairs, h0]
    · have hne' : t.leaves ≠ [] := fun h => hne (by simp [h])
      have hlfk : leafForKey t k =
          some ((t.leaves.takeWhile (fun l => leafMinLe l k)).length - 1) := by
        rw [leafForKey, if_neg hne]
      show frontSuffix t (rawStartPos t (.included k)) = _
      rw [rawStartPos, hlfk]
      have hmain := bounded_start_suffix hwf hne' k false
        ((t.leaves.takeWhile (fun l => leafMinLe l k)).length - 1) rfl
      show suffixAt t _ _ = _
      rw [hmain]
      exact List.filter_congr fun a _ => by simp [lowerOk]
  | excluded k =>
    by_cases hne : t.leaves.isEmpty
    · have h0 : t.leaves = [] := List.isEmpty_iff.1 hne
      simp [rawStartPos, leafForKey, hne, frontSuffix, allPairs, h0]
    · have hne' : t.leaves ≠ [] := fun h => hne (by simp [h])
      have hlfk : leafForKey t k =
          some ((t.leaves.takeWhile (fun l => leafMinLe l k)).length - 1) := by
        rw [leafForKey, if_neg hne]
      show frontSuffix t (rawStartPos t (.excluded k)) = _
      rw [rawStartPos, hlfk]
      have hmain := bounded_start_suffix hwf hne' k true
        ((t.leaves.takeWhile (fun l => leafMinLe l k)).length - 1) rfl
      show suffixAt t _ _ = _
      rw [hmain]
      exact List.filter_congr fun a _ => by simp [lowerOk]

lemma upperOk_down {eb : Bound K} {a b : K} (hab : a ≤ b)
    (hb : upperOk eb b = true) : upperOk eb a = true := by
  cases eb with
  | unbounded => rfl
  | included e => simp only [upperOk, decide_eq_true_eq] at hb ⊢; exact le_trans hab hb
  | excluded e => simp only [upperOk, decide_eq_true_eq] at hb ⊢; exact lt_of_le_of_lt hab hb

/-- Cutting the bound-passing suffix at the end bound gives exactly the
doubly filtered pair sequence. -/
lemma takeWhile_suffix_filter {t : TreeModel K V} (hwf : WF t) (sb eb : Bound K) :
    (frontSuffix t (rawStartPos t sb)).takeWhile (fun p => upperOk eb p.1) =
      (allPairs t).filter (fun p => lowerOk sb p.1 && upperOk eb p.1) := by
  rw [frontSuffix_rawStartPos hwf]
  have hsor : ((allPairs t).filter (fun p => lowerOk sb p.1)).Pairwise
      (fun p q : K × V => p.1 < q.1) :=
    List.Pairwise.sublist (List.filter_sublist _) hwf.2
  rw [takeWhile_eq_filter_of_sorted hsor
    (fun a b hab hb => upperOk_down (le_of_lt hab) hb)]
  rw [List.filter_filter]
  exact List.filter_congr fun a _ => Bool.and_comm _ _

/-- The full forward drain of a `range` cursor is the filtered sequence. -/
lemma drainF_range_filter {t : TreeModel K V} (hwf : WF t) (sb eb : Bound K) :
    drainF t (range t sb eb) (numItems t) =
      (allPairs t).filter (fun p => lowerOk sb p.1 && upperOk eb p.1) := by
  have hflen : (frontSuffix t (rawStartPos t sb)).length ≤ numItems t := by
    rw [frontSuffix_rawStartPos hwf]
    exact List.length_filter_le _ _
  rw [drainF_range t sb eb hflen, takeWhile_suffix_filter hwf]

/-! ### The eager collector of `items_range` -/

lemma drainF_vec (t : TreeModel K V) :
    ∀ (fuel : Nat) (l : List (K × V)), drainF t (.vec l) fuel = l.take fuel := by
  intro fuel
  induction fuel with
  | zero => intro l; rfl
  | succ fuel ih =>
    intro l
    cases l with
    | nil => rfl
    | cons p rest =>
      show drainF t (.vec (p :: rest)) (fuel + 1) = p :: rest.take fuel
      rw [← ih rest]
      rfl

/-- The leaf-walking loop of `collect_range_bounds` produces the same head
segment of the suffix as the lazy forward loop does step by step. -/
lemma collectLoop_spec (t : TreeModel K V) (eb : Bound K) (j i : Nat) :
    collectLoop t eb j i = (suffixAt t j i).takeWhile (fun p => upperOk eb p.1) := by
  have H : ∀ d j i, t.leaves.length - j ≤ d →
      collectLoop t eb j i = (suffixAt t j i).takeWhile (fun p => upperOk eb p.1) := by
    intro d
    induction d with
    | zero =>
      intro j i hle
      have hj : t.leaves.length ≤ j := by omega
      rw [collectLoop, suffixAt_of_out hj]
      simp [show ¬ j < t.leaves.length by omega]
    | succ d ih =>
      intro j i hle
      by_cases hj : j < t.leaves.length
      · have hleaf : getLeaf t j = t.leaves[j] := getLeaf_of_lt hj
        have hsfx : suffixAt t j i =
            t.leaves[j].drop i ++ (t.leaves.drop (j + 1)).flatten := by
          rw [suffixAt, hleaf]
        rw [collectLoop]
        simp only [hj, dif_pos, List.get_eq_getElem]
        by_cases hall : (t.leaves[j].drop i).all (fun p => upperOk eb p.1)
        · rw [if_pos hall, hsfx,
            takeWhile_append_all (fun a ha => List.all_eq_true.1 hall a ha)]
          congr 1
          rw [ih (j + 1) 0 (by omega)]
          by_cases hj1 : j + 1 < t.leaves.length
          · rw [suffixAt_zero hj1]
          · rw [suffixAt_of_out (by omega), List.drop_eq_nil_of_le (by omega)]
            rfl
        · rw [if_neg hall, hsfx, takeWhile_append_stop]
          intro hcontra
          exact hall (List.all_eq_true.2 hcontra)
      · rw [collectLoop, suffixAt_of_out (by omega)]
        simp [hj]
  exact H (t.leaves.length - j) j i le_rfl

/-- `collect_range_bounds` equals the end-bound cut of the start-position
suffix — the same value the lazy `range` cursor drains to. -/
lemma collectRangeBounds_eq (t : TreeModel K V) (sb eb : Bound K) :
    collectRangeBounds t sb eb =
      (frontSuffix t (rawStartPos t sb)).takeWhile (fun p => upperOk eb p.1) := by
  cases sb with
  | unbounded =>
    rw [collectRangeBounds, rawStartPos]
    by_cases hne : t.leaves.isEmpty
    · rw [leftmostLeaf, if_pos hne]
      rfl
    · rw [leftmostLeaf, if_neg hne]
      show collectLoop t eb 0 0 = _
      rw [collectLoop_spec]
      rfl
  | included k =>
    rw [collectRangeBounds, rawStartPos]
    cases hlfk : leafForKey t k with
    | none => rfl
    | some j =>
      show collectLoop t eb j (startIndex (getLeaf t j) k false) = _
      rw [collectLoop_spec]
      rfl
  | excluded k =>
    rw [collectRangeBounds, rawStartPos]
    cases hlfk : leafForKey t k with
    | none => rfl
    | some j =>
      show collectLoop t eb j (startIndex (getLeaf t j) k true) = _
      rw [collectLoop_spec]
      rfl

/-! ### Backward stepping -/

lemma upTo_zero_zero (t : TreeModel K V) : upToPos t 0 0 = [] := by
  simp [upToPos]

lemma upTo_snoc {t : TreeModel K V} {j bidx : Nat} (hb : 0 < bidx)
    (hle : bidx ≤ (getLeaf t j).length) :
    upToPos t j bidx = upToPos t j (bidx - 1) ++ [(getLeaf t j).get ⟨bidx - 1, by omega⟩] := by
  have hsucc : bidx - 1 + 1 = bidx := by omega
  have htk : (getLeaf t j).take bidx =
      (getLeaf t j).take (bidx - 1) ++ [(getLeaf t j).get ⟨bidx - 1, by omega⟩] := by
    conv_lhs => rw [← hsucc]
    rw [List.take_succ, List.getElem?_eq_getElem (by omega)]
    rfl
  rw [upToPos, htk, upToPos, List.append_assoc]

lemma upTo_prev_leaf {t : TreeModel K V} {j : Nat} (hj : 0 < j) :
    upToPos t j 0 = upToPos t (j - 1) (getLeaf t (j - 1)).length := by
  by_cases hjl : j - 1 < t.leaves.length
  · have hgl : getLeaf t (j - 1) = t.leaves[j - 1] := getLeaf_of_lt hjl
    have htake : t.leaves.take j = t.leaves.take (j - 1) ++ [t.leaves[j - 1]] := by
      conv_lhs => rw [show j = j - 1 + 1 by omega]
      rw [List.take_succ, List.getElem?_eq_getElem hjl]
      rfl
    rw [upToPos, upToPos, htake, List.flatten_append, hgl, List.take_length]
    simp
  · have h1 : t.leaves.length ≤ j - 1 := by omega
    have hgl : getLeaf t (j - 1) = [] := getLeaf_of_le h1
    rw [upToPos, upToPos, hgl]
    have h2 : t.leaves.take j = t.leaves := List.take_of_length_le (by omega)
    have h3 : t.leaves.take (j - 1) = t.leaves := List.take_of_length_le h1
    simp [h2, h3]

/-- One backward call with an unbounded start bound, classified by the
already-passed part: at an exhausted position it terminates, otherwise it
yields the last passed pair and steps back over it. -/
lemma nextBackAux_spec (t : TreeModel K V) (rem : Nat) :
    ∀ (j bidx : Nat), bidx ≤ (getLeaf t j).length →
      (upToPos t j bidx = [] ∧
        ∃ b2, nextBackAux t (.unbounded) rem j bidx = (none, none, b2, 0))
      ∨ (∃ front p, upToPos t j bidx = front ++ [p] ∧
          ∃ j2 i2, nextBackAux t (.unbounded) rem j bidx = (some p, some j2, i2, rem - 1) ∧
            upToPos t j2 i2 = front ∧ i2 ≤ (getLeaf t j2).length) := by
  intro j
  induction j with
  | zero =>
    intro bidx hle
    by_cases hb : 0 < bidx
    · right
      have hbl : bidx - 1 < (getLeaf t 0).length := by omega
      refine ⟨upToPos t 0 (bidx - 1), (getLeaf t 0).get ⟨bidx - 1, hbl⟩,
        upTo_snoc hb hle, 0, bidx - 1, ?_, rfl, by omega⟩
      rw [nextBackAux]
      simp [hb, hbl, lowerOk]
    · left
      have hb0 : bidx = 0 := by omega
      subst hb0
      refine ⟨upTo_zero_zero t, 0, ?_⟩
      rw [nextBackAux]
      simp
  | succ j ih =>
    intro bidx hle
    by_cases hb : 0 < bidx
    · right
      have hbl : bidx - 1 < (getLeaf t (j + 1)).length := by omega
      refine ⟨upToPos t (j + 1) (bidx - 1), (getLeaf t (j + 1)).get ⟨bidx - 1, hbl⟩,
        upTo_snoc hb hle, j + 1, bidx - 1, ?_, rfl, by omega⟩
      rw [nextBackAux]
      simp [hb, hbl, lowerOk]
    · have hb0 : bidx = 0 := by omega
      subst hb0
      have hup : upToPos t (j + 1) 0 = upToPos t j (getLeaf t j).length := by
        have := upTo_prev_leaf (t := t) (j := j + 1) (by omega)
        simpa using this
      have hrec : nextBackAux t (.unbounded) rem (j + 1) 0 =
          nextBackAux t (.unbounded) rem j (getLeaf t j).length := by
        rw [nextBackAux]
        simp
      rcases ih (getLeaf t j).length le_rfl with ⟨hnil, b2, heq⟩ | ⟨front, p, hsnoc, j2, i2, heq, hfr, hi2⟩
      · left
        exact ⟨by rw [hup, hnil], b2, by rw [hrec, heq]⟩
      · right
        exact ⟨front, p, by rw [hup, hsnoc], j2, i2, by rw [hrec, heq], hfr, hi2⟩

lemma drainB_of_none {t : TreeModel K V} {it : ItemsIter K V}
    (h : (nextBack t it).1 = none) : ∀ fuel, drainB t it fuel = [] := by
  intro fuel
  cases fuel with
  | zero => rfl
  | succ fuel =>
    rcases hn : nextBack t it with ⟨r, it'⟩
    rw [hn] at h
    simp at h
    subst h
    simp [drainB, hn]

/-- Backward draining with an unbounded start bound from a valid back
position yields the passed pairs in reverse. -/
lemma drainB_pos {t : TreeModel K V} :
    ∀ (fuel : Nat) (c : LazyCursor K) (j bidx : Nat), c.backLeaf = some j →
      c.backIdx = bidx → c.startBound = .unbounded →
      bidx ≤ (getLeaf t j).length → (upToPos t j bidx).length ≤ fuel →
      drainB t (.lazy c) fuel = (upToPos t j bidx).reverse := by
  intro fuel
  induction fuel with
  | zero =>
    intro c j bidx _ _ _ _ hlen
    have : upToPos t j bidx = [] := List.length_eq_zero.mp (Nat.le_zero.mp hlen)
    rw [this]
    rfl
  | succ fuel ih =>
    intro c j bidx hbl hbi hsb hble hlen
    rcases nextBackAux_spec t c.remaining j bidx hble with
      ⟨hnil, b2, heq⟩ | ⟨front, p, hsnoc, j2, i2, heq, hfr, hi2⟩
    · have hnone : (nextBack t (.lazy c)).1 = none := by
        simp only [nextBack, hbl, hbi, hsb, heq]
      rw [drainB_of_none hnone, hnil]
      rfl
    · have hyield : nextBack t (.lazy c) =
          (some p, .lazy { c with backLeaf := some j2, backIdx := i2, remaining := c.remaining - 1 }) := by
        simp only [nextBack, hbl, hbi, hsb, heq]
      have hstep : drainB t (.lazy c) (fuel + 1) =
          p :: drainB t
            (.lazy { c with backLeaf := some j2, backIdx := i2, remaining := c.remaining - 1 }) fuel := by
        simp [drainB, hyield]
      have hfb : (upToPos t j2 i2).length ≤ fuel := by
        have hl1 : (upToPos t j bidx).length = front.length + 1 := by
          rw [hsnoc, List.length_append]
          rfl
        rw [hfr]
        omega
      have hrec := ih ({ c with backLeaf := some j2, backIdx := i2, remaining := c.remaining - 1 })
        j2 i2 rfl rfl hsb hi2 hfb
      rw [hstep, hrec, hfr, hsnoc]
      simp

lemma drainB_back_none {t : TreeModel K V} {c : LazyCursor K}
    (h : c.backLeaf = none) (fuel : Nat) : drainB t (.lazy c) fuel = [] := by
  apply drainB_of_none
  simp [nextBack, h]

/-- A full backward drain of `items()` yields every pair in reverse order. -/
lemma drainB_items (t : TreeModel K V) {fuel : Nat} (hfuel : numItems t ≤ fuel) :
    drainB t (items t) fuel = (allPairs t).reverse := by
  by_cases h : numItems t = 0
  · have hnil : allPairs t = [] := by
      have := h
      simp only [numItems, List.length_eq_zero] at this
      exact this
    rw [hnil]
    show drainB t (items t) fuel = []
    rw [items, if_pos h]
    exact drainB_back_none rfl fuel
  · have hne : t.leaves ≠ [] := leaves_ne_nil_of_numItems h
    have hlen : 0 < t.leaves.length := List.length_pos.mpr hne
    obtain ⟨c, hc, hbl, hbi, hsb⟩ := items_back_fields h
    have hgl : getLeaf t (t.leaves.length - 1) = t.leaves[t.leaves.length - 1] :=
      getLeaf_of_lt (by omega)
    have hup : upToPos t (t.leaves.length - 1) (getLeaf t (t.leaves.length - 1)).length =
        allPairs t := by
      rw [upToPos]
      rw [hgl]
      rw [List.take_length]
      have htake : t.leaves.take (t.leaves.length - 1) ++ [t.leaves[t.leaves.length - 1]] =
          t.leaves := by
        have h1 : t.leaves.take (t.leaves.length - 1 + 1) =
            t.leaves.take (t.leaves.length - 1) ++ [t.leaves[t.leaves.length - 1]] := by
          rw [List.take_succ, List.getElem?_eq_getElem (by omega)]
          rfl
        have h2 : t.leaves.take (t.leaves.length - 1 + 1) = t.leaves :=
          List.take_of_length_le (by omega)
        rw [← h1, h2]
      rw [allPairs]
      conv_rhs => rw [← htake]
      rw [List.flatten_append]
      simp
    have hlenle : (upToPos t (t.leaves.length - 1)
        (getLeaf t (t.leaves.length - 1)).length).length ≤ fuel := by
      rw [hup]
      exact hfuel
    rw [hc, drainB_pos fuel c _ _ hbl hbi hsb le_rfl hlenle, hup]

/-! ### Forward stepping leaves the back state untouched -/

lemma initCursor_back (t : TreeModel K V) (c : LazyCursor K) :
    (initCursor t c).backLeaf = c.backLeaf ∧ (initCursor t c).backIdx = c.backIdx ∧
      (initCursor t c).startBound = c.startBound := by
  by_cases h : c.initialized
  · simp [initCursor, h]
  · simp [initCursor, h]

lemma next_preserves_back (t : TreeModel K V) (c : LazyCursor K) :
    ∃ c2, (next t (.lazy c)).2 = .lazy c2 ∧ c2.backLeaf = c.backLeaf ∧
      c2.backIdx = c.backIdx ∧ c2.startBound = c.startBound := by
  obtain ⟨h1, h2, h3⟩ := initCursor_back t c
  cases hfl : (initCursor t c).frontLeaf with
  | none => exact ⟨initCursor t c, by simp only [next, hfl], h1, h2, h3⟩
  | some j =>
    refine ⟨{ initCursor t c with
        frontLeaf := (itemsNextLoop t (initCursor t c).endBound (initCursor t c).remaining j
          (initCursor t c).frontIdx).2.1,
        frontIdx := (itemsNextLoop t (initCursor t c).endBound (initCursor t c).remaining j
          (initCursor t c).frontIdx).2.2.1,
        remaining := (itemsNextLoop t (initCursor t c).endBound (initCursor t c).remaining j
          (initCursor t c).frontIdx).2.2.2 }, ?_, h1, h2, h3⟩
    simp only [next, hfl]

lemma stepN_preserves_back (t : TreeModel K V) :
    ∀ (m : Nat) (c : LazyCursor K), ∃ c2, stepN t m (.lazy c) = .lazy c2 ∧
      c2.backLeaf = c.backLeaf ∧ c2.backIdx = c.backIdx ∧
      c2.startBound = c.startBound := by
  intro m
  induction m with
  | zero => exact fun c => ⟨c, rfl, rfl, rfl, rfl⟩
  | succ m ih =>
    intro c
    obtain ⟨c1, hc1, hb1, hi1, hs1⟩ := next_preserves_back t c
    obtain ⟨c2, hc2, hb2, hi2, hs2⟩ := ih c1
    refine ⟨c2, ?_, hb2.trans hb1, hi2.trans hi1, hs2.trans hs1⟩
    show stepN t (m + 1) (.lazy c) = .lazy c2
    simp only [stepN, hc1]
    exact hc2

/-- However far the forward end has advanced, a backward drain of `items()`
still yields every pair in reverse: the two ends do not interlock. -/
lemma drainB_stepN_items (t : TreeModel K V) (m : Nat) {fuel : Nat}
    (hfuel : numItems t ≤ fuel) :
    drainB t (stepN t m (items t)) fuel = (allPairs t).reverse := by
  by_cases h : numItems t = 0
  · have hnil : allPairs t = [] := by
      simpa only [numItems, List.length_eq_zero] using h
    have hitems : items t = .lazy ⟨none, 0, none, 0, 0, .unbounded, .unbounded, true⟩ := by
      simp [items, h]
    rw [hitems]
    obtain ⟨c2, hc2, hb2, _, _⟩ := stepN_preserves_back t m
      ⟨none, 0, none, 0, 0, .unbounded, .unbounded, true⟩
    rw [hc2, hnil]
    exact drainB_back_none hb2 fuel
  · have hne : t.leaves ≠ [] := leaves_ne_nil_of_numItems h
    have hlen : 0 < t.leaves.length := List.length_pos.mpr hne
    obtain ⟨c, hc, hbl, hbi, hsb⟩ := items_back_fields h
    obtain ⟨c2, hc2, hb2, hi2, hs2⟩ := stepN_preserves_back t m c
    rw [hc, hc2]
    have hgl : getLeaf t (t.leaves.length - 1) = t.leaves[t.leaves.length - 1] :=
      getLeaf_of_lt (by omega)
    have hup : upToPos t (t.leaves.length - 1) (getLeaf t (t.leaves.length - 1)).length =
        allPairs t := by
      rw [upToPos]
      rw [hgl]
      rw [List.take_length]
      have htake : t.leaves.take (t.leaves.length - 1) ++ [t.leaves[t.leaves.length - 1]] =
          t.leaves := by
        have h1 : t.leaves.take (t.leaves.length - 1 + 1) =
            t.leaves.take (t.leaves.length - 1) ++ [t.leaves[t.leaves.length - 1]] := by
          rw [List.take_succ, List.getElem?_eq_getElem (by omega)]
          rfl
        have h2 : t.leaves.take (t.leaves.length - 1 + 1) = t.leaves :=
          List.take_of_length_le (by omega)
        rw [← h1, h2]
      rw [allPairs]
      conv_rhs => rw [← htake]
      rw [List.flatten_append]
      simp
    rw [drainB_pos fuel c2 _ _ (hb2.trans hbl) (hi2.trans hbi) (hs2.trans hsb) le_rfl
      (by rw [hup]; exact hfuel), hup]

/-! ### Termination is absorbing -/

lemma itemsNextLoop_term {t : TreeModel K V} {eb : Bound K} {rem j i : Nat}
    (h : (itemsNextLoop t eb rem j i).1 = none) :
    (itemsNextLoop t eb rem j i).2.1 = none := by
  rcases itemsNextLoop_spec t eb rem j i with
    ⟨_, i2, heq⟩ | ⟨p, rest, _, ⟨_, i2, heq⟩ | ⟨_, j2, i2, heq, _⟩⟩
  · rw [heq]
  · rw [heq]
  · rw [heq] at h
    cases h

lemma nextBackAux_term {t : TreeModel K V} {sb : Bound K} {rem : Nat} :
    ∀ {j bidx : Nat}, (nextBackAux t sb rem j bidx).1 = none →
      (nextBackAux t sb rem j bidx).2.1 = none := by
  intro j
  induction j with
  | zero =>
    intro bidx h
    rw [nextBackAux] at h ⊢
    by_cases hb : 0 < bidx
    · simp only [hb, if_true] at h ⊢
      by_cases h2 : bidx - 1 < (getLeaf t 0).length
      · simp only [h2, dif_pos] at h ⊢
        by_cases hlo : lowerOk sb ((getLeaf t 0).get ⟨bidx - 1, h2⟩).1
        · rw [if_pos hlo] at h
          cases h
        · rw [if_neg hlo]
      · simp only [h2, dif_neg] at h ⊢
        rfl
    · simp [hb]
  | succ j ih =>
    intro bidx h
    rw [nextBackAux] at h ⊢
    by_cases hb : 0 < bidx
    · simp only [hb, if_true] at h ⊢
      by_cases h2 : bidx - 1 < (getLeaf t (j + 1)).length
      · simp only [h2, dif_pos] at h ⊢
        by_cases hlo : lowerOk sb ((getLeaf t (j + 1)).get ⟨bidx - 1, h2⟩).1
        · rw [if_pos hlo] at h
          cases h
        · rw [if_neg hlo]
      · simp only [h2, dif_neg] at h ⊢
        rfl
    · simp only [hb, if_false] at h ⊢
      simp only [Nat.succ_sub_one] at h ⊢
      have hpos : (0 : Nat) < j + 1 := by omega
      simp only [hpos, dif_pos] at h ⊢
      exact ih h

lemma next_lazy_of_none {t : TreeModel K V} {c : LazyCursor K}
    (h1 : c.initialized = true) (h2 : c.frontLeaf = none) :
    next t (.lazy c) = (none, .lazy c) := by
  simp only [next, initCursor_of_initialized h1, h2]

lemma nextBack_lazy_of_none {t : TreeModel K V} {c : LazyCursor K}
    (h2 : c.backLeaf = none) :
    nextBack t (.lazy c) = (none, .lazy c) := by
  simp only [nextBack, h2]

lemma next_absorb {t : TreeModel K V} {it it' : ItemsIter K V}
    (h : next t it = (none, it')) : next t it' = (none, it') := by
  cases it with
  | vec l =>
    cases l with
    | nil =>
      have h' : ((none : Option (K × V)), ItemsIter.vec ([] : List (K × V))) = (none, it') := h
      have hit : it' = .vec [] := by
        injection h' with _ h2
        exact h2.symm
      rw [hit]
      rfl
    | cons p rest =>
      have h' : ((some p : Option (K × V)), ItemsIter.vec rest) = (none, it') := h
      injection h' with h1 _
      cases h1
  | lazy c =>
    cases hfl : (initCursor t c).frontLeaf with
    | none =>
      have hn : next t (.lazy c) = (none, .lazy (initCursor t c)) := by
        simp only [next, hfl]
      rw [hn] at h
      have hit : it' = .lazy (initCursor t c) := by
        injection h with _ h2
        exact h2.symm
      rw [hit]
      simp only [next, initCursor_of_initialized (initCursor_initialized t c), hfl]
    | some j =>
      have hn : next t (.lazy c) =
          ((itemsNextLoop t (initCursor t c).endBound (initCursor t c).remaining j
              (initCursor t c).frontIdx).1,
            .lazy { initCursor t c with
              frontLeaf := (itemsNextLoop t (initCursor t c).endBound
                (initCursor t c).remaining j (initCursor t c).frontIdx).2.1,
              frontIdx := (itemsNextLoop t (initCursor t c).endBound
                (initCursor t c).remaining j (initCursor t c).frontIdx).2.2.1,
              remaining := (itemsNextLoop t (initCursor t c).endBound
                (initCursor t c).remaining j (initCursor t c).frontIdx).2.2.2 }) := by
        simp only [next, hfl]
      rw [hn] at h
      have hr1 : (itemsNextLoop t (initCursor t c).endBound (initCursor t c).remaining j
          (initCursor t c).frontIdx).1 = none := by
        have := congrArg Prod.fst h
        simpa using this
      have hr2 := itemsNextLoop_term hr1
      have hit : it' = .lazy { initCursor t c with
          frontLeaf := (itemsNextLoop t (initCursor t c).endBound
            (initCursor t c).remaining j (initCursor t c).frontIdx).2.1,
          frontIdx := (itemsNextLoop t (initCursor t c).endBound
            (initCursor t c).remaining j (initCursor t c).frontIdx).2.2.1,
          remaining := (itemsNextLoop t (initCursor t c).endBound
            (initCursor t c).remaining j (initCursor t c).frontIdx).2.2.2 } := by
        have := congrArg Prod.snd h
        simpa using this.symm
      rw [hit]
      have hinit2 : ({ initCursor t c with
          frontLeaf := (itemsNextLoop t (initCursor t c).endBound
            (initCursor t c).remaining j (initCursor t c).frontIdx).2.1,
          frontIdx := (itemsNextLoop t (initCursor t c).endBound
            (initCursor t c).remaining j (initCursor t c).frontIdx).2.2.1,
          remaining := (itemsNextLoop t (initCursor t c).endBound
            (initCursor t c).remaining j (initCursor t c).frontIdx).2.2.2 }
          : LazyCursor K).initialized = true :=
        initCursor_initialized t c
      exact next_lazy_of_none hinit2 hr2

lemma nextBack_absorb {t : TreeModel K V} {it it' : ItemsIter K V}
    (h : nextBack t it = (none, it')) : nextBack t it' = (none, it') := by
  cases it with
  | vec l =>
    cases hl : l.getLast? with
    | none =>
      have hn : nextBack t (.vec l) = (none, .vec l) := by
        simp only [nextBack, hl]
      rw [hn] at h
      have hit : it' = .vec l := by
        injection h with _ h2
        exact h2.symm
      rw [hit]
      simp only [nextBack, hl]
    | some p =>
      have hn : nextBack t (.vec l) = (some p, .vec l.dropLast) := by
        simp only [nextBack, hl]
      rw [hn] at h
      injection h with h1 _
      cases h1
  | lazy c =>
    cases hbl : c.backLeaf with
    | none =>
      have hn : nextBack t (.lazy c) = (none, .lazy c) := by
        simp only [nextBack, hbl]
      rw [hn] at h
      have hit : it' = .lazy c := by
        injection h with _ h2
        exact h2.symm
      rw [hit]
      exact hn
    | some j =>
      have hn : nextBack t (.lazy c) =
          ((nextBackAux t c.startBound c.remaining j c.backIdx).1,
            .lazy { c with
              backLeaf := (nextBackAux t c.startBound c.remaining j c.backIdx).2.1,
              backIdx := (nextBackAux t c.startBound c.remaining j c.backIdx).2.2.1,
              remaining := (nextBackAux t c.startBound c.remaining j c.backIdx).2.2.2 }) := by
        simp only [nextBack, hbl]
      rw [hn] at h
      have hr1 : (nextBackAux t c.startBound c.remaining j c.backIdx).1 = none := by
        have := congrArg Prod.fst h
        simpa using this
      have hr2 := nextBackAux_term hr1
      have hit : it' = .lazy { c with
          backLeaf := (nextBackAux t c.startBound c.remaining j c.backIdx).2.1,
          backIdx := (nextBackAux t c.startBound c.remaining j c.backIdx).2.2.1,
          remaining := (nextBackAux t c.startBound c.remaining j c.backIdx).2.2.2 } := by
        have := congrArg Prod.snd h
        simpa using this.symm
      rw [hit]
      exact nextBack_lazy_of_none hr2

/-! ### The map façade: construction and point mutation

The constructor and the point operations live outside the staged sources;
they are modelled from the spec. -/

/-- Construction failure taxonomy of §7: bad capacity or layout overflow. -/
inductive NewError where
  | badCapacity : NewError
  | layoutOverflow : NewError
deriving DecidableEq, Repr

/-- Modelled from the spec (§4.1): the platform's address arithmetic is the
64-bit usize. -/
def usizeMax : Nat := 2 ^ 64 - 1

/-- Modelled from the spec (§4.1 Errors): layout computation fails if
`C·sizeof(K) + C·sizeof(V) + headers` overflows platform address
arithmetic. -/
def layoutOverflows (capacity sizeK sizeV hdrSize : Nat) : Bool :=
  decide (usizeMax < capacity * sizeK + capacity * sizeV + hdrSize)

/-- The value `new` returns: the (empty) leaf level and the tree height. -/
structure NewResult (K V : Type) where
  tree : TreeModel K V
  height : Nat
deriving DecidableEq, Repr

/-- Modelled from the spec (§4.7, §7): `BPlusTreeMap::new(capacity)` fails
exactly on capacity below 4 or layout-arithmetic overflow; otherwise it
returns an empty map of height 0. -/
def newMap (capacity sizeK sizeV hdrSize : Nat) : Except NewError (NewResult K V) :=
  if capacity < 4 then .error .badCapacity
  else if layoutOverflows capacity sizeK sizeV hdrSize then .error .layoutOverflow
  else .ok ⟨⟨[]⟩, 0⟩

/-- Modelled from the spec (§4.7): `get(&k)` returns the stored value of the
(unique, I6) live entry with key k, on the flattened entry sequence. -/
def get : List (K × V) → K → Option V
  | [], _ => none
  | p :: rest, k => if p.1 = k then some p.2 else get rest k

/-- Modelled from the spec (§4.4 Contract): `insert(k, v)` returns the
previous value if k was present (and overwrites it), otherwise inserts at
the sorted position and returns nothing.  Splits and rebalancing do not
change the flattened entry sequence, so the model works on it directly. -/
def insert : List (K × V) → K → V → Option V × List (K × V)
  | [], k, v => (none, [(k, v)])
  | p :: rest, k, v =>
    if k < p.1 then (none, (k, v) :: p :: rest)
    else if k = p.1 then (some p.2, (k, v) :: rest)
    else
      let r := insert rest k v
      (r.1, p :: r.2)

/-- Modelled from the spec (§4.7): `len()` is the live entry count (I5). -/
def mapLen (m : List (K × V)) : Nat :=
  m.length

/-- n successive `insert`s of the same key and value, from the empty map. -/
def insertSame (k : K) (v : V) : Nat → List (K × V)
  | 0 => []
  | n + 1 => (insert (insertSame k v n) k v).2

lemma insert_twice (m : List (K × V)) (k : K) (v1 v2 : V) :
    (insert (insert m k v1).2 k v2).1 = some v1 ∧
    (insert (insert m k v1).2 k v2).2.length = (insert m k v1).2.length ∧
    get (insert (insert m k v1).2 k v2).2 k = some v2 := by
  induction m with
  | nil =>
    refine ⟨?_, ?_, ?_⟩ <;> simp [insert, get]
  | cons p rest ih =>
    by_cases h1 : k < p.1
    · refine ⟨?_, ?_, ?_⟩ <;> simp [insert, get, h1]
    · by_cases h2 : k = p.1
      · refine ⟨?_, ?_, ?_⟩ <;> simp [insert, get, h1, h2]
      · obtain ⟨ih1, ih2, ih3⟩ := ih
        have hne : ¬ p.1 = k := fun hcontra => h2 hcontra.symm
        refine ⟨?_, ?_, ?_⟩ <;> simp [insert, get, h1, h2, hne, ih1, ih2, ih3]

lemma insertSame_eq (k : K) (v : V) : ∀ n, insertSame k v (n + 1) = [(k, v)] := by
  intro n
  induction n with
  | zero => simp [insertSame, insert]
  | succ n ih =>
    show (insert (insertSame k v (n + 1)) k v).2 = [(k, v)]
    rw [ih]
    simp [insert]

/-! ### Concrete trees used by the witnesses -/

/-- A two-leaf well-formed example tree over `Nat` keys and values. -/
def tExample : TreeModel Nat Nat :=
  ⟨[[(0, 10), (1, 11)], [(2, 12), (3, 13), (4, 14)]]⟩

/-- The empty example tree. -/
def tEmpty : TreeModel Nat Nat :=
  ⟨[]⟩

/-! ### The claims -/

/-- C1: the spec expects that reversing a bounded `range` cursor initializes
the back end on the first `next_back` and yields every in-bounds key in
descending order (S6: keys 200, 199, …, 100 for `range(100..=200)` on keys
0..1000).  The code disagrees: `range` stores a null `back_leaf`
(iterate.rs:351) and `Items::next_back` has no lazy-initialization path — it
returns `None` at once on a null back leaf (iterate.rs:178).  Hence on every
map and every pair of bounds, the first reverse step of a `range` cursor is
`None` and a full reverse drain yields nothing, contradicting S6. -/
theorem range_rev_yields_nothing (t : TreeModel K V) (sb eb : Bound K) (fuel : Nat) :
    drainB t (range t sb eb) fuel = [] ∧ (nextBack t (range t sb eb)).1 = none := by
  constructor
  · exact drainB_back_none rfl fuel
  · rw [show range t sb eb = .lazy ⟨none, 0, none, 0, 0, sb, eb, false⟩ from rfl,
      nextBack_lazy_of_none rfl]

/-- C2: for every well-formed map and any pair of bounds, forward iteration
of `range` yields exactly the sub-sequence of `items()` whose keys pass the
start bound and the end bound (end tested as ≤ for `Included`, < for
`Excluded`, true for `Unbounded`), in ascending order.  The half-open
`range(a..b)` of the claim is the instance `sb = Included a, eb = Excluded
b`. -/
theorem range_eq_items_filter (t : TreeModel K V) (hwf : WF t) (sb eb : Bound K) :
    drainF t (range t sb eb) (numItems t) =
      (drainF t (items t) (numItems t)).filter
        (fun p => lowerOk sb p.1 && upperOk eb p.1) := by
  rw [drainF_items t le_rfl, drainF_range_filter hwf]

theorem range_eq_items_filter_witness :
    WF tExample ∧
      drainF tExample (range tExample (.included 1) (.excluded 3)) (numItems tExample) =
        (drainF tExample (items tExample) (numItems tExample)).filter
          (fun p => lowerOk (.included 1) p.1 && upperOk (.excluded 3) p.1) :=
  ⟨by decide, range_eq_items_filter tExample (by decide) (.included 1) (.excluded 3)⟩

/-- C3: `range` performs no descent and reads no node: the returned cursor
is the same for any two maps — every field is independent of the map's
contents — and is exactly the uninitialized state (no front or back leaf,
`initialized` false, the two bounds copied). -/
theorem range_construction_lazy (t t' : TreeModel K V) (sb eb : Bound K) :
    range t sb eb = range t' sb eb ∧
      range t sb eb = .lazy ⟨none, 0, none, 0, 0, sb, eb, false⟩ :=
  ⟨rfl, rfl⟩

/-- C4: a terminated end never yields again: once `next` returns `None` the
cursor state is absorbing for `next`, and symmetrically once `next_back`
returns `None` it is absorbing for `next_back`. -/
theorem terminated_never_yields (t : TreeModel K V) (it it' : ItemsIter K V) :
    (next t it = (none, it') → next t it' = (none, it')) ∧
    (nextBack t it = (none, it') → nextBack t it' = (none, it')) :=
  ⟨next_absorb, nextBack_absorb⟩

theorem terminated_never_yields_witness :
    next tEmpty (items tEmpty) = (none, items tEmpty) ∧
      nextBack tEmpty (items tEmpty) = (none, items tEmpty) :=
  ⟨(terminated_never_yields tEmpty (items tEmpty) (items tEmpty)).1 (by decide),
    (terminated_never_yields tEmpty (items tEmpty) (items tEmpty)).2 (by decide)⟩

/-- C9: overwriting an existing key returns the previous value, leaves the
length unchanged, and makes `get` return the new value; inserting the same
key any positive number of times from the empty map leaves `len() == 1`. -/
theorem insert_overwrite_spec (m : List (K × V)) (k : K) (v1 v2 : V) :
    (insert (insert m k v1).2 k v2).1 = some v1 ∧
    mapLen (insert (insert m k v1).2 k v2).2 = mapLen (insert m k v1).2 ∧
    get (insert (insert m k v1).2 k v2).2 k = some v2 ∧
    ∀ n : Nat, mapLen (insertSame k v1 (n + 1)) = 1 := by
  obtain ⟨h1, h2, h3⟩ := insert_twice m k v1 v2
  exact ⟨h1, h2, h3, fun n => by rw [insertSame_eq k v1 n]; rfl⟩

/-- C8: `new(capacity)` fails — an error, no map — exactly when the capacity
is below 4 or the layout size arithmetic overflows the platform's address
arithmetic; for every other input it returns an empty map: `len()` 0,
`is_empty()` true, tree height 0. -/
theorem newMap_spec (capacity sizeK sizeV hdrSize : Nat) :
    ((∃ e, @newMap K V capacity sizeK sizeV hdrSize = .error e) ↔
      (capacity < 4 ∨ layoutOverflows capacity sizeK sizeV hdrSize = true)) ∧
    (∀ r, @newMap K V capacity sizeK sizeV hdrSize = .ok r →
      numItems r.tree = 0 ∧ isEmpty r.tree = true ∧ r.height = 0) := by
  constructor
  · constructor
    · rintro ⟨e, he⟩
      by_cases h4 : capacity < 4
      · exact Or.inl h4
      · by_cases hov : layoutOverflows capacity sizeK sizeV hdrSize
        · exact Or.inr hov
        · rw [newMap, if_neg h4, if_neg hov] at he
          cases he
    · intro h
      by_cases h4 : capacity < 4
      · exact ⟨.badCapacity, by rw [newMap, if_pos h4]⟩
      · have hov : layoutOverflows capacity sizeK sizeV hdrSize = true := by
          rcases h with h | h
          · exact absurd h h4
          · exact h
        exact ⟨.layoutOverflow, by rw [newMap, if_neg h4, if_pos hov]⟩
  · intro r hr
    by_cases h4 : capacity < 4
    · rw [newMap, if_pos h4] at hr
      cases hr
    · by_cases hov : layoutOverflows capacity sizeK sizeV hdrSize
      · rw [newMap, if_neg h4, if_pos hov] at hr
        cases hr
      · rw [newMap, if_neg h4, if_neg hov] at hr
        injection hr with hr'
        rw [← hr']
        exact ⟨rfl, rfl, rfl⟩

theorem newMap_spec_witness :
    numItems ((⟨⟨[]⟩, 0⟩ : NewResult Nat Nat).tree) = 0 ∧
      isEmpty ((⟨⟨[]⟩, 0⟩ : NewResult Nat Nat).tree) = true ∧
      (⟨⟨[]⟩, 0⟩ : NewResult Nat Nat).height = 0 :=
  (@newMap_spec Nat Nat _ 8 1 1 16).2 ⟨⟨[]⟩, 0⟩ rfl

/-- C10: the eager `items_range(Some(&a), Some(&b))` — which pre-collects
its pairs through `collect_range_bounds` — yields exactly the same sequence
as forward iteration of the lazy cursor `range(a..b)`. -/
theorem itemsRange_eq_range (t : TreeModel K V) (hwf : WF t) (a b : K) :
    drainF t (itemsRange t (some a) (some b)) (numItems t) =
      drainF t (range t (.included a) (.excluded b)) (numItems t) := by
  have hlen : (collectRangeBounds t (.included a) (.excluded b)).length ≤ numItems t := by
    rw [collectRangeBounds_eq, takeWhile_suffix_filter hwf]
    exact List.length_filter_le _ _
  show drainF t (.vec (collectRangeBounds t (.included a) (.excluded b))) (numItems t) = _
  rw [drainF_vec, List.take_of_length_le hlen, collectRangeBounds_eq,
    takeWhile_suffix_filter hwf, ← drainF_range_filter hwf]

theorem itemsRange_eq_range_witness :
    WF tExample ∧
      drainF tExample (itemsRange tExample (some 1) (some 3)) (numItems tExample) =
        drainF tExample (range tExample (.included 1) (.excluded 3)) (numItems tExample) :=
  ⟨by decide, itemsRange_eq_range tExample (by decide) 1 3⟩

/-- C7: `items()` over `n > 0` items reports `size_hint() == (n, Some n)`
when fresh (`m = 0`) and `(n-m, Some (n-m))` after `m < n` pairs were
yielded; a fresh `range` cursor reports `(0, None)` — it does not know its
remaining count. -/
theorem size_hint_spec (t : TreeModel K V) (m : Nat) (hm : m < numItems t) :
    sizeHint (stepN t m (items t)) = (numItems t - m, some (numItems t - m)) ∧
    ∀ (t2 : TreeModel K V) (sb eb : Bound K), sizeHint (range t2 sb eb) = (0, none) := by
  constructor
  · obtain ⟨c, hc, hInv, hend, _, hrem⟩ := items_front_inv t
    obtain ⟨c', hstep, hInv', _, _, _, _, hrem'⟩ :=
      stepN_inv m c (allPairs t) hInv hend (le_of_lt hm)
    rw [hc, hstep]
    have hinit' : c'.initialized = true := hInv'.1
    have hrem2 : c'.remaining = numItems t - m := by rw [hrem', hrem]
    have hpos : 0 < c'.remaining := by rw [hrem2]; omega
    have hcond : (c'.initialized && decide (0 < c'.remaining)) = true := by
      rw [hinit', decide_eq_true hpos]
      rfl
    show (if c'.initialized && decide (0 < c'.remaining)
        then (c'.remaining, some c'.remaining) else (0, none)) = _
    rw [if_pos hcond, hrem2]
  · intro t2 sb eb
    rfl

theorem size_hint_spec_witness :
    sizeHint (stepN tExample 2 (items tExample)) =
        (numItems tExample - 2, some (numItems tExample - 2)) ∧
      ∀ (t2 : TreeModel Nat Nat) (sb eb : Bound Nat), sizeHint (range t2 sb eb) = (0, none) :=
  size_hint_spec tExample 2 (by decide)

/-- C5: the two ends of an `items()` cursor terminate independently, with no
front-crosses-back check.  On a one-pair map, `next()` then `next_back()` on
the same cursor both return that pair; and after any number of forward steps
— in particular full forward exhaustion, after which `next` keeps returning
`None` — `next_back` still yields every pair in descending order. -/
theorem ends_independent (t : TreeModel K V) (k : K) (v : V) (m fuel : Nat)
    (hfuel : numItems t ≤ fuel) :
    ((next (⟨[[(k, v)]]⟩ : TreeModel K V) (items ⟨[[(k, v)]]⟩)).1 = some (k, v) ∧
      (nextBack (⟨[[(k, v)]]⟩ : TreeModel K V)
        (next (⟨[[(k, v)]]⟩ : TreeModel K V) (items ⟨[[(k, v)]]⟩)).2).1 = some (k, v)) ∧
    drainB t (stepN t m (items t)) fuel = (allPairs t).reverse ∧
    (next t (stepN t (numItems t) (items t))).1 = none := by
  refine ⟨⟨?_, ?_⟩, drainB_stepN_items t m hfuel, ?_⟩
  · obtain ⟨c, hc, hInv, hend, _, _⟩ := items_front_inv (⟨[[(k, v)]]⟩ : TreeModel K V)
    have hall : allPairs (⟨[[(k, v)]]⟩ : TreeModel K V) = [(k, v)] := rfl
    rw [hall] at hInv
    have hq : upperOk c.endBound (k, v).1 = true := by rw [hend]; rfl
    obtain ⟨c1, hnext, _, _, _, _, _, _⟩ := next_step_yield hInv hq
    rw [hc, hnext]
  · have hone : numItems (⟨[[(k, v)]]⟩ : TreeModel K V) = 1 := rfl
    have hd : drainB (⟨[[(k, v)]]⟩ : TreeModel K V)
        (stepN (⟨[[(k, v)]]⟩ : TreeModel K V) 1 (items ⟨[[(k, v)]]⟩)) 1 =
        (allPairs (⟨[[(k, v)]]⟩ : TreeModel K V)).reverse :=
      drainB_stepN_items (⟨[[(k, v)]]⟩ : TreeModel K V) 1 (le_of_eq hone)
    have hrev : (allPairs (⟨[[(k, v)]]⟩ : TreeModel K V)).reverse = [(k, v)] := rfl
    rw [hrev] at hd
    have hsteps : stepN (⟨[[(k, v)]]⟩ : TreeModel K V) 1 (items ⟨[[(k, v)]]⟩) =
        (next (⟨[[(k, v)]]⟩ : TreeModel K V) (items ⟨[[(k, v)]]⟩)).2 := rfl
    rw [← hsteps]
    rcases hn : nextBack (⟨[[(k, v)]]⟩ : TreeModel K V)
        (stepN (⟨[[(k, v)]]⟩ : TreeModel K V) 1 (items ⟨[[(k, v)]]⟩)) with ⟨r, it2⟩
    cases r with
    | none =>
      have hnil := drainB_of_none (by rw [hn] : (nextBack _ _).1 = none) 1
      rw [hnil] at hd
      cases hd
    | some p =>
      have : drainB (⟨[[(k, v)]]⟩ : TreeModel K V)
          (stepN (⟨[[(k, v)]]⟩ : TreeModel K V) 1 (items ⟨[[(k, v)]]⟩)) 1 = [p] := by
        simp [drainB, hn]
      rw [this] at hd
      injection hd with h1 _
      simp [hn, h1]
  · obtain ⟨c, hc, hInv, hend, _, _⟩ := items_front_inv t
    obtain ⟨c', hstep, hInv', hend', _, _, _, _⟩ :=
      stepN_inv (numItems t) c (allPairs t) hInv hend le_rfl
    rw [show (allPairs t).drop (numItems t) = [] from List.drop_length _] at hInv'
    rw [hc, hstep]
    exact next_step_none hInv' (Or.inl rfl)

theorem ends_independent_witness :
    ((next (⟨[[(7, 77)]]⟩ : TreeModel Nat Nat) (items ⟨[[(7, 77)]]⟩)).1 = some (7, 77) ∧
      (nextBack (⟨[[(7, 77)]]⟩ : TreeModel Nat Nat)
        (next (⟨[[(7, 77)]]⟩ : TreeModel Nat Nat) (items ⟨[[(7, 77)]]⟩)).2).1 = some (7, 77)) ∧
    drainB tExample (stepN tExample 9 (items tExample)) 5 = (allPairs tExample).reverse ∧
    (next tExample (stepN tExample (numItems tExample) (items tExample))).1 = none :=
  ends_independent tExample 7 77 9 5 (by decide)

/-- C6: `first()` and `last()` return `None` exactly on the empty map; on a
nonempty map `first()` returns the pair with the minimum live key and
`last()` the pair with the maximum. -/
theorem first_last_spec (t : TreeModel K V) (hwf : WF t) :
    (numItems t = 0 → first t = none ∧ last t = none) ∧
    (0 < numItems t → ∃ p q, first t = some p ∧ last t = some q ∧
      p ∈ allPairs t ∧ q ∈ allPairs t ∧
      ∀ r ∈ allPairs t, p.1 ≤ r.1 ∧ r.1 ≤ q.1) := by
  constructor
  · intro h
    have hitems : items t = .lazy ⟨none, 0, none, 0, 0, .unbounded, .unbounded, true⟩ := by
      simp [items, h]
    have hnone : (next t (items t)).1 = none := by
      rw [hitems, next_lazy_of_none rfl rfl]
    constructor
    · show (next t (items t)).1 = none
      exact hnone
    · show (drainF t (items t) (numItems t + 1)).getLast? = none
      rw [drainF_of_none hnone (numItems t + 1)]
      rfl
  · intro h
    have hne : allPairs t ≠ [] := by
      intro hcontra
      rw [numItems, hcontra] at h
      simp at h
    obtain ⟨p0, rest, hcons⟩ := List.exists_cons_of_ne_nil hne
    obtain ⟨c, hc, hInv, hend, _, _⟩ := items_front_inv t
    rw [hcons] at hInv
    have hq : upperOk c.endBound p0.1 = true := by rw [hend]; rfl
    obtain ⟨c1, hnext, _, _, _, _, _, _⟩ := next_step_yield hInv hq
    have hfirst : first t = some p0 := by rw [first, hc, hnext]
    have hdrain : drainF t (items t) (numItems t + 1) = allPairs t :=
      drainF_items t (Nat.le_succ _)
    have hlast : last t = (allPairs t).getLast? := by rw [last, hdrain]
    have hgl : (allPairs t).getLast? = some ((allPairs t).getLast hne) :=
      List.getLast?_eq_getLast _ hne
    have hpw : (p0 :: rest).Pairwise (fun p q : K × V => p.1 < q.1) := by
      rw [← hcons]
      exact hwf.2
    refine ⟨p0, (allPairs t).getLast hne, hfirst, by rw [hlast, hgl], ?_,
      List.getLast_mem hne, ?_⟩
    · rw [hcons]
      exact List.mem_cons_self _ _
    · intro r hr
      constructor
      · have hr' : r ∈ p0 :: rest := by rw [← hcons]; exact hr
        rcases List.mem_cons.1 hr' with rfl | hr''
        · exact le_rfl
        · exact ((List.pairwise_cons.1 hpw).1 r hr'').le
      · have hpwrev : ((allPairs t).reverse).Pairwise (fun a b : K × V => b.1 < a.1) :=
          List.pairwise_reverse.mpr hwf.2
        have hrevne : (allPairs t).reverse ≠ [] := by simpa using hne
        obtain ⟨q0, rrest, hrcons⟩ := List.exists_cons_of_ne_nil hrevne
        have hq0 : q0 = (allPairs t).getLast hne := by
          have h1 : (allPairs t).reverse.head? = some q0 := by rw [hrcons]; rfl
          rw [List.head?_reverse, hgl] at h1
          exact (Option.some_injective _ h1).symm
        have hrrev : r ∈ (allPairs t).reverse := by simpa using hr
        rw [hrcons] at hrrev
        have hpwrev' : (q0 :: rrest).Pairwise (fun a b : K × V => b.1 < a.1) := by
          rw [← hrcons]
          exact hpwrev
        rcases List.mem_cons.1 hrrev with rfl | hr''
        · exact le_of_eq (by rw [hq0])
        · have hlt : r.1 < q0.1 := (List.pairwise_cons.1 hpwrev').1 r hr''
          rw [hq0] at hlt
          exact hlt.le

theorem first_last_spec_witness :
    (numItems tExample = 0 → first tExample = none ∧ last tExample = none) ∧
    (0 < numItems tExample → ∃ p q, first tExample = some p ∧ last tExample = some q ∧
      p ∈ allPairs tExample ∧ q ∈ allPairs tExample ∧
      ∀ r ∈ allPairs tExample, p.1 ≤ r.1 ∧ r.1 ≤ q.1) :=
  first_last_spec tExample (by decide)

end BPlusTree
